import Mathlib

/-!
# korylprince/mbox: separator recognition and message splitting

A shallow embedding of `parse.go` (`FindSeparator`, `ScanMessage`).

* A byte span (`[]byte`) is a `List Nat`; Go `int` values are `Int`.
* Slice and index expressions are checked: an out-of-range access is the
  fault `indexOutOfRange` (a Go run-time panic).
* `FindSeparator` is recursive on a shrinking span; the embedding recurses
  on a fuel counter and the entry point supplies `len(data) + 1`.
* The two validators `mail.ParseAddress` and `time.Parse` belong to the Go
  standard library; every function takes them as parameters `va` and `vt`
  (`true` means the library call returned a nil error).
-/

namespace Mbox

set_option maxRecDepth 100000

/-! ## Data model -/

/-- Ways in which a run of the embedded code can stop without a result. -/
inductive Fault where
  | indexOutOfRange
  | outOfFuel
  deriving DecidableEq, Repr

/-- The errors `ScanMessage` can return. -/
inductive ScanError where
  | ErrorUnexpectedEOF
  deriving DecidableEq, Repr

/-- The bytes of an ASCII string literal. -/
def bytesOf (s : String) : List Nat := s.toList.map Char.toNat

/-- `separatorPrefix = []byte("From ")`. -/
def separatorPrefix : List Nat := [70, 114, 111, 109, 32]

/-! ## Library operations on byte spans -/

/-- First offset at which `sep` occurs in `s`, if any. -/
def indexOf? (sep : List Nat) : List Nat → Option Nat
  | [] => if sep = [] then some 0 else none
  | x :: xs =>
    if sep.isPrefixOf (x :: xs) then some 0
    else (indexOf? sep xs).map (· + 1)

/-- `bytes.Index(s, sep)`: the index of the first instance of `sep` in `s`,
or `-1` if `sep` is not present. -/
def bytesIndex (s sep : List Nat) : Int :=
  match indexOf? sep s with
  | some k => (k : Int)
  | none => -1

/-- First offset at which the byte `c` occurs in `s`, if any. -/
def indexByte? (c : Nat) : List Nat → Option Nat
  | [] => none
  | x :: xs => if x = c then some 0 else (indexByte? c xs).map (· + 1)

/-- `bytes.IndexByte(s, c)`: the index of the first instance of `c` in `s`,
or `-1` if `c` is not present. -/
def bytesIndexByte (s : List Nat) (c : Nat) : Int :=
  match indexByte? c s with
  | some k => (k : Int)
  | none => -1

/-- The slice expression `data[lo:]`. -/
def sliceFrom (data : List Nat) (lo : Int) : Except Fault (List Nat) :=
  if 0 ≤ lo ∧ lo ≤ data.length then .ok (data.drop lo.toNat)
  else .error .indexOutOfRange

/-- The slice expression `data[lo:hi]`. -/
def slice (data : List Nat) (lo hi : Int) : Except Fault (List Nat) :=
  if 0 ≤ lo ∧ lo ≤ hi ∧ hi ≤ data.length then
    .ok ((data.drop lo.toNat).take (hi.toNat - lo.toNat))
  else .error .indexOutOfRange

/-- The index expression `data[i]`. -/
def byteAt (data : List Nat) (i : Int) : Except Fault Nat :=
  if 0 ≤ i then
    match data[i.toNat]? with
    | some b => .ok b
    | none => .error .indexOutOfRange
  else .error .indexOutOfRange

/-! ## `FindSeparator` -/

/-- The body of `FindSeparator`, with the recursion bounded by `fuel`.
`va addr` says `mail.ParseAddress(string(addr))` returned no error and
`vt ts` says `time.Parse(ctimeFormat, string(ts))` returned no error. -/
def FindSeparatorAux (va vt : List Nat → Bool) :
    Nat → List Nat → Except Fault (Int × Int)
  | 0, _ => .error .outOfFuel
  | fuel + 1, data => do
    -- find "From "
    let start := bytesIndex data separatorPrefix
    if start < 0 then
      return (-1, 0)
    let addrStart := start + separatorPrefix.length
    -- find end of addr-spec
    let tail ← sliceFrom data addrStart
    let addrEnd := bytesIndexByte tail 32
    if addrEnd < 0 then
      return (-1, 0)
    -- normalize addrEnd to data
    let addrEnd := addrStart + addrEnd
    let timeStart := addrEnd + 1
    -- verify addr-spec is correct
    let addr ← slice data addrStart addrEnd
    if !va addr then
      let rest ← sliceFrom data timeStart
      let (i, size) ← FindSeparatorAux va vt fuel rest
      if i = -1 then
        return (-1, 0)
      return (timeStart + i, size)
    -- find end of line marker
    let rest ← sliceFrom data timeStart
    let timeEnd := bytesIndex rest [10]
    if timeEnd < 0 then
      return (-1, 0)
    -- detect a CRLF
    let probe ← byteAt data (timeStart + timeEnd - 1)
    let eol : List Nat := if probe = 13 then [13, 10] else [10]
    let timeEnd := if probe = 13 then timeEnd - 1 else timeEnd
    -- normalize timeEnd to data
    let timeEnd := timeStart + timeEnd
    let endIdx := timeEnd + eol.length
    -- verify timestamp is correct
    let ts ← slice data timeStart timeEnd
    if !vt ts then
      let rest ← sliceFrom data timeStart
      let (i, size) ← FindSeparatorAux va vt fuel rest
      if i = -1 then
        return (-1, 0)
      return (timeStart + i, size)
    return (start, endIdx - start)

/-- `FindSeparator(data)`: start index and length of the first separator
line, the index being negative when none is found. -/
def FindSeparator (va vt : List Nat → Bool) (data : List Nat) :
    Except Fault (Int × Int) :=
  FindSeparatorAux va vt (data.length + 1) data

/-! ## `ScanMessage` -/

/-- `ScanMessage(data, atEOF)`: the triple `(advance, token, err)`, a nil
token or error being `none`. -/
def ScanMessage (va vt : List Nat → Bool) (data : List Nat) (atEOF : Bool) :
    Except Fault (Int × Option (List Nat) × Option ScanError) := do
  let mut idx : Int := 0
  let mut size : Int := 0
  if atEOF then
    if data.length = 0 then
      return (0, none, none)
    (idx, size) ← FindSeparator va vt data
    if idx = -1 then
      return (0, none, some .ErrorUnexpectedEOF)
  else
    (idx, size) ← FindSeparator va vt data
    if idx = -1 then
      return (0, none, none)
  let rest ← sliceFrom data (idx + size)
  let (newidx, _) ← FindSeparator va vt rest
  if newidx ≠ -1 then
    -- normalize to data
    let newidx := idx + size + newidx
    let token ← slice data idx newidx
    return (newidx, some token, none)
  -- rest of data is message
  if atEOF then
    let token ← sliceFrom data idx
    return (data.length, some token, none)
  return (0, none, none)

/-! ## One pass of `FindSeparator`

`FindSeparator` examines the first `"From "` candidate of its span and then
either answers or calls itself on `data[timeStart:]`.  The functions below
describe that single pass with natural-number offsets; `FindSeparatorAux_succ`
proves that the embedded code computes exactly this. -/

/-- What one pass over the first candidate decides. -/
inductive Candidate where
  /-- The answer is `(-1, 0)` without a further call. -/
  | absent
  /-- The candidate is rejected and the search continues on `data[timeStart:]`. -/
  | retry (timeStart : Nat)
  /-- The candidate is a separator line. -/
  | found (start size : Nat)
  deriving DecidableEq, Repr

/-- One pass on the bytes that follow the prefix `"From "`; offsets are relative
to `tail`, and `found 0 n` reports `n` bytes of `tail` up to the end of the
end-of-line marker. -/
def parseTail (va vt : List Nat → Bool) (tail : List Nat) : Candidate :=
  match indexByte? 32 tail with
  | none => .absent
  | some a =>
    if !va (tail.take a) then .retry (a + 1)
    else
      match indexByte? 10 (tail.drop (a + 1)) with
      | none => .absent
      | some e =>
        let cr : Bool := decide (tail[a + e]? = some 13)
        let te := if cr then e - 1 else e
        if !vt ((tail.drop (a + 1)).take te) then .retry (a + 1)
        else .found 0 (a + 1 + te + (if cr then 2 else 1))

/-- One pass on a whole span. -/
def firstCandidate (va vt : List Nat → Bool) (data : List Nat) : Candidate :=
  match indexOf? separatorPrefix data with
  | none => .absent
  | some s =>
    match parseTail va vt (data.drop (s + 5)) with
    | .absent => .absent
    | .retry t => .retry (s + 5 + t)
    | .found _ n => .found s (5 + n)

/-- How the result of the recursive call on `data[timeStart:]` is returned. -/
def offsetResult (timeStart : Int) (r : Int × Int) : Int × Int :=
  if r.1 = -1 then (-1, 0) else (timeStart + r.1, r.2)

/-- The span `data` with the byte `b` inserted before offset `m`. -/
def insertAt (data : List Nat) (m : Nat) (b : Nat) : List Nat :=
  data.take m ++ b :: data.drop m

/-! ## Separator lines, as the specification describes them -/

/-- A syntactically valid separator line of `n` bytes starts at offset `p` of
`data`: `data[p:]` begins with `"From "`, the bytes up to the next space are an
accepted address, and the bytes after that space up to the next LF or CR LF are
an accepted timestamp. -/
def SeparatorAt (va vt : List Nat → Bool) (data : List Nat) (p n : Nat) : Prop :=
  ∃ addr ts eol post,
    data.drop p = separatorPrefix ++ addr ++ [32] ++ ts ++ eol ++ post ∧
    n = (separatorPrefix ++ addr ++ [32] ++ ts ++ eol).length ∧
    32 ∉ addr ∧ va addr = true ∧ 10 ∉ ts ∧ vt ts = true ∧
    (eol = [10] ∨ eol = [13, 10])

/-- The line the code accepts at offset `p`: a separator line as in
`SeparatorAt`, where the end-of-line marker is read as CR LF whenever a CR
stands before the LF. -/
def AcceptedAt (va vt : List Nat → Bool) (data : List Nat) (p n : Nat) : Prop :=
  ∃ addr ts eol post,
    data.drop p = separatorPrefix ++ (addr ++ 32 :: (ts ++ eol ++ post)) ∧
    n = 5 + (addr.length + 1 + ts.length + eol.length) ∧
    32 ∉ addr ∧ va addr = true ∧ 10 ∉ ts ∧ vt ts = true ∧
    ((eol = [10] ∧ ∀ ts1, ts ≠ ts1 ++ [13]) ∨ eol = [13, 10])

deriving instance DecidableEq for Except

/-! ## Reference validators

The general theorems hold for every pair of validators.  Closed statements
about concrete spans need a concrete pair; the two below are used there. -/

/-- Modelled from the spec: part of the address validator below. RFC 2822
`atext`: letters, digits and the printable specials allowed in an atom. -/
def isAtext (b : Nat) : Bool :=
  (48 ≤ b && b ≤ 57) || (65 ≤ b && b ≤ 90) || (97 ≤ b && b ≤ 122) ||
  [33, 35, 36, 37, 38, 39, 42, 43, 45, 47, 61, 63, 94, 95, 96, 123, 124, 125, 126].contains b

/-- Modelled from the spec: part of the address validator below. RFC 2822
`dot-atom-text`: non-empty runs of `atext` separated by single dots; `n` is the
length of the run read so far. -/
def isDotAtomFrom : Nat → List Nat → Bool
  | n, [] => decide (0 < n)
  | n, b :: bs =>
    if b = 46 then decide (0 < n) && isDotAtomFrom 0 bs
    else isAtext b && isDotAtomFrom (n + 1) bs

/-- Modelled from the spec: the address validator. The code calls Go's
`mail.ParseAddress`, a library function whose source is not part of the
repository; the spec describes it as validation against the RFC 2822
`addr-spec` grammar (local-part `@` domain). This model accepts
`dot-atom "@" dot-atom`. -/
def addrSpecOk (a : List Nat) : Bool :=
  match indexByte? 64 a with
  | none => false
  | some k => isDotAtomFrom 0 (a.take k) && isDotAtomFrom 0 (a.drop (k + 1))

/-- Modelled from the spec: part of the timestamp validator below. Value of
two decimal digits, if both bytes are digits. -/
def twoDigits (a b : Nat) : Option Nat :=
  if 48 ≤ a ∧ a ≤ 57 ∧ 48 ≤ b ∧ b ≤ 57 then some ((a - 48) * 10 + (b - 48)) else none

/-- Modelled from the spec: part of the timestamp validator below, the
three-letter weekday names. -/
def weekdayNames : List (List Nat) :=
  ["Sun", "Mon", "Tue", "Wed", "Thu", "Fri", "Sat"].map bytesOf

/-- Modelled from the spec: part of the timestamp validator below, the
three-letter month names. -/
def monthNames : List (List Nat) :=
  ["Jan", "Feb", "Mar", "Apr", "May", "Jun", "Jul", "Aug", "Sep", "Oct", "Nov", "Dec"].map bytesOf

/-- Modelled from the spec: the timestamp validator. The code calls Go's
`time.Parse(ctimeFormat, ·)`, a library function whose source is not part of
the repository; the spec describes the accepted pattern as three-letter weekday,
space, three-letter month, space, two-digit day, space, `HH:MM:SS` (24-hour),
space, four-digit year. The fields are laid out as in the source's constant
`ctimeFormat = "Mon Jan 02 15:04:05 2006"`, whose day element `02` is two
decimal digits. -/
def ctimeOk (ts : List Nat) : Bool :=
  match ts with
  | [w1, w2, w3, s1, m1, m2, m3, s2, d1, d2, s3, h1, h2, c1, n1, n2, c2, e1, e2, s4,
      y1, y2, y3, y4] =>
    weekdayNames.contains [w1, w2, w3] && monthNames.contains [m1, m2, m3] &&
    s1 == 32 && s2 == 32 && s3 == 32 && s4 == 32 && c1 == 58 && c2 == 58 &&
    (match twoDigits d1 d2 with | some d => decide (1 ≤ d ∧ d ≤ 31) | none => false) &&
    (match twoDigits h1 h2 with | some h => decide (h < 24) | none => false) &&
    (match twoDigits n1 n2 with | some m => decide (m < 60) | none => false) &&
    (match twoDigits e1 e2 with | some e => decide (e < 60) | none => false) &&
    (twoDigits y1 y2).isSome && (twoDigits y3 y4).isSome
  | _ => false

/-! ## The timestamp validator as a Go time layout

`FindSeparator` validates the timestamp with `time.Parse(ctimeFormat, ·)`. The
layout constant is part of the source; `time.Parse` is Go library code. The
model below reads a value against a layout element by element, following the
layout rules documented for Go's `time` package, for the elements that occur
in `ctimeFormat` and in the ctime layout `time.ANSIC`. -/

/-- `ctimeFormat = "Mon Jan 02 15:04:05 2006"`. -/
def ctimeFormat : List Nat := bytesOf "Mon Jan 02 15:04:05 2006"

/-- Modelled from the spec: Go's own ctime layout, `time.ANSIC`, which differs
from `ctimeFormat` in the day element: `_2` (space-padded) instead of `02`
(zero-padded). It is not used by the code. -/
def ansicFormat : List Nat := bytesOf "Mon Jan _2 15:04:05 2006"

/-- Modelled from the spec: the elements of a Go time layout (library code
outside the repository) that the two layouts above use. -/
inductive LayoutElem where
  /-- `Mon`: three-letter weekday name. -/
  | weekday
  /-- `Jan`: three-letter month name. -/
  | month
  /-- `02`: day of the month, two digits, zero-padded. -/
  | zeroDay
  /-- `_2`: day of the month, space-padded to two characters. -/
  | underDay
  /-- `15`: hour, 00 to 23. -/
  | hour
  /-- `04`: minute, two digits. -/
  | zeroMinute
  /-- `05`: second, two digits. -/
  | zeroSecond
  /-- `2006`: year, four digits. -/
  | longYear
  /-- Any other byte of the layout, matched literally. -/
  | lit (b : Nat)
  deriving DecidableEq, Repr

/-- Modelled from the spec: splitting a layout into its elements, as Go's
`time` package does for the elements above. -/
def layoutElems : List Nat → List LayoutElem
  | 77 :: 111 :: 110 :: rest => .weekday :: layoutElems rest
  | 74 :: 97 :: 110 :: rest => .month :: layoutElems rest
  | 48 :: 50 :: rest => .zeroDay :: layoutElems rest
  | 95 :: 50 :: rest => .underDay :: layoutElems rest
  | 49 :: 53 :: rest => .hour :: layoutElems rest
  | 48 :: 52 :: rest => .zeroMinute :: layoutElems rest
  | 48 :: 53 :: rest => .zeroSecond :: layoutElems rest
  | 50 :: 48 :: 48 :: 54 :: rest => .longYear :: layoutElems rest
  | b :: rest => .lit b :: layoutElems rest
  | [] => []

/-- Modelled from the spec: the date fields a parse collects. -/
structure TimeFields where
  day : Nat
  month : Nat
  year : Nat
  deriving DecidableEq, Repr

/-- Modelled from the spec: whether a byte is a decimal digit. -/
def isDigit (b : Nat) : Bool := decide (48 ≤ b ∧ b ≤ 57)

/-- Modelled from the spec: a number of exactly two digits (`fixed = true`), or
of one or two digits (`fixed = false`), at the start of the value. -/
def getnum (fixed : Bool) : List Nat → Option (Nat × List Nat)
  | a :: b :: rest =>
    if isDigit a then
      if isDigit b then some ((a - 48) * 10 + (b - 48), rest)
      else if fixed then none else some (a - 48, b :: rest)
    else none
  | [a] => if isDigit a && !fixed then some (a - 48, []) else none
  | [] => none

/-- Modelled from the spec: ASCII letters compare without regard to case. -/
def lowerByte (b : Nat) : Nat := if 65 ≤ b ∧ b ≤ 90 then b + 32 else b

/-- Modelled from the spec: index (from 1) of the three-letter name at the start
of the value, with the rest of the value. -/
def lookupName (names : List (List Nat)) (v : List Nat) : Option (Nat × List Nat) :=
  match v with
  | a :: b :: c :: rest =>
    match (names.map (fun n => n.map lowerByte)).indexOf? [lowerByte a, lowerByte b, lowerByte c] with
    | some i => some (i + 1, rest)
    | none => none
  | _ => none

/-- Modelled from the spec: the value without its leading spaces. -/
def cutspace : List Nat → List Nat
  | 32 :: rest => cutspace rest
  | v => v

/-- Modelled from the spec: the value without a fractional second `.ddd` or
`,ddd` at its start, which Go accepts after the seconds although the layout has
none. -/
def skipFraction (v : List Nat) : List Nat :=
  match v with
  | c :: d :: rest =>
    if (c = 46 ∨ c = 44) ∧ isDigit d = true then (d :: rest).dropWhile isDigit else v
  | _ => v

/-- Modelled from the spec: reading one layout element off the value. -/
def parseElem (e : LayoutElem) (f : TimeFields) (v : List Nat) :
    Option (TimeFields × List Nat) :=
  match e with
  | .weekday => (lookupName weekdayNames v).map (fun r => (f, r.2))
  | .month => (lookupName monthNames v).map (fun r => ({ f with month := r.1 }, r.2))
  | .zeroDay => (getnum true v).map (fun r => ({ f with day := r.1 }, r.2))
  | .underDay =>
    let v1 := match v with
      | 32 :: rest => rest
      | _ => v
    (getnum false v1).map (fun r => ({ f with day := r.1 }, r.2))
  | .hour => (getnum false v).bind (fun r => if r.1 < 24 then some (f, r.2) else none)
  | .zeroMinute => (getnum true v).bind (fun r => if r.1 < 60 then some (f, r.2) else none)
  | .zeroSecond =>
    (getnum true v).bind (fun r => if r.1 < 60 then some (f, skipFraction r.2) else none)
  | .longYear =>
    match v with
    | a :: b :: c :: d :: rest =>
      if isDigit a && isDigit b && isDigit c && isDigit d then
        some ({ f with year := (a - 48) * 1000 + (b - 48) * 100 + (c - 48) * 10 + (d - 48) }, rest)
      else none
    | _ => none
  | .lit b =>
    if b = 32 then
      match v with
      | [] => some (f, [])
      | x :: rest => if x = 32 then some (f, cutspace rest) else none
    else
      match v with
      | x :: rest => if x = b then some (f, rest) else none
      | [] => none

/-- Modelled from the spec: reading all elements; nothing may be left over. -/
def parseElems : List LayoutElem → TimeFields → List Nat → Option TimeFields
  | [], f, v => if v = [] then some f else none
  | e :: es, f, v =>
    match parseElem e f v with
    | some (f1, v1) => parseElems es f1 v1
    | none => none

/-- Modelled from the spec: days in a month of the Gregorian calendar. -/
def daysIn (month year : Nat) : Nat :=
  if month = 2 then
    if year % 4 = 0 ∧ (year % 100 ≠ 0 ∨ year % 400 = 0) then 29 else 28
  else if month = 4 ∨ month = 6 ∨ month = 9 ∨ month = 11 then 30
  else 31

/-- Modelled from the spec: `time.Parse(layout, value)` returns a nil error.
Go library code outside the repository; the value is read against the
elements of the layout and the day must exist in the month. -/
def goTimeOk (layout value : List Nat) : Bool :=
  match parseElems (layoutElems layout) { day := 1, month := 1, year := 0 } value with
  | some f => decide (1 ≤ f.day ∧ f.day ≤ daysIn f.month f.year)
  | none => false

/-! ## Whole-archive loop over `ScanMessage` -/

/-- The loop that calls `ScanMessage(rest, true)` again and again: each returned
token is collected and `rest` is replaced by `rest[advance:]`; the loop stops
at the first call that returns an error or no token. The result is the
collected tokens, the span of the last call and the triple it returned. `fuel`
bounds the number of calls. -/
def scanAll (va vt : List Nat → Bool) :
    Nat → List Nat →
      Except Fault (List (List Nat) × List Nat × (Int × Option (List Nat) × Option ScanError))
  | 0, _ => .error .outOfFuel
  | fuel + 1, rest => do
    let (advance, token, err) ← ScanMessage va vt rest true
    match token, err with
    | some tok, none =>
      let next ← sliceFrom rest advance
      let (toks, last) ← scanAll va vt fuel next
      return (tok :: toks, last)
    | _, _ => return ([], rest, (advance, token, err))

/-! ## The incremental tokenizer

The scanner that drives `ScanMessage` is part of the repository but its source
is not available; the definitions of this section follow the specification of
the tokenizer (its data model, driver loop and error kinds). -/

/-- Modelled from the spec: the error kinds of the tokenizer; the scanner's
source is not available. -/
inductive ErrorKind where
  | UnexpectedEndOfStream
  | TokenTooLarge
  | SourceNoProgress
  | SourceReadError
  | BoundaryContractViolation
  deriving DecidableEq, Repr

/-- Modelled from the spec: the outcome of a boundary decision, one of Continue,
NeedMoreData and Fatal(kind); the scanner's source is not available. -/
inductive Outcome where
  | Continue
  | NeedMoreData
  | Fatal (kind : ErrorKind)
  deriving DecidableEq, Repr

/-- Modelled from the spec: the result `(bytesToConsume, tokenSpan|none,
outcome)` of the boundary function; the scanner's source is not available. -/
structure Decision where
  bytesToConsume : Nat
  tokenSpan : Option (List Nat)
  outcome : Outcome
  deriving DecidableEq, Repr

/-- Modelled from the spec: what a read of the byte source signals besides the
bytes: more data may follow, end of stream reached, or read error; the
scanner's source is not available. -/
inductive ReadSignal where
  | moreDataMayFollow
  | endOfStream
  | readError
  deriving DecidableEq, Repr

/-- Modelled from the spec: the result of "read up to N bytes": the bytes read
and the signal; the scanner's source is not available. -/
structure ReadResult where
  bytes : List Nat
  signal : ReadSignal
  deriving DecidableEq, Repr

/-- Modelled from the spec: a byte source, as the function from the number of
reads already made and the maximum size to the result of the next read; the
scanner's source is not available. -/
abbrev ByteSource := Nat → Nat → ReadResult

/-- Modelled from the spec: the state of the tokenizer: the buffered bytes not
yet consumed, the capacity of the buffer and its ceiling, the stream state
(exhausted, sticky error), the current token and the counters of the driver
loop; the scanner's source is not available. -/
structure Tokenizer where
  pending : List Nat
  capacity : Nat
  maxSize : Nat
  exhausted : Bool
  stickyError : Option ErrorKind
  token : Option (List Nat)
  reads : Nat
  emptyReads : Nat
  stalls : Nat
  deriving DecidableEq, Repr

/-- Modelled from the spec: a tokenizer at construction: nothing buffered,
source not exhausted, no error; the scanner's source is not available. The
spec fixes the ceiling `maxSize` as the one setting and says only that the
buffer is created empty, so the size allocated at construction is left open:
`capacity` is 0 when nothing is allocated before the first read. -/
def newTokenizer (capacity maxSize : Nat) : Tokenizer :=
  { pending := [], capacity := capacity, maxSize := maxSize, exhausted := false,
    stickyError := none, token := none, reads := 0, emptyReads := 0, stalls := 0 }

/-- Modelled from the spec: step 5 of the driver loop, taken when more bytes
may exist; the scanner's source is not available. A full buffer grows
geometrically up to the ceiling, and a full buffer already at the ceiling is
the fatal TokenTooLarge. Then one bounded read is made. End of stream marks the
source exhausted, with the final bytes retained. Zero bytes with no error and
no end of stream increment the no-progress counter, and beyond `threshold` the
fatal SourceNoProgress is raised. Bytes reset the counter and extend the filled
region. An error keeps the bytes and is recorded. The result is the state with
which the loop goes on (`inl`), or the value and state with which `advance()`
returns (`inr`). -/
def fillStep (source : ByteSource) (threshold : Nat) (t : Tokenizer) :
    Tokenizer ⊕ (Bool × Tokenizer) :=
  if t.pending.length = t.capacity ∧ t.maxSize ≤ t.capacity then
    .inr (false, { t with stickyError := some .TokenTooLarge, token := none })
  else
    let t :=
      if t.pending.length = t.capacity then
        { t with capacity := min (max 1 (2 * t.capacity)) t.maxSize }
      else t
    let r := source t.reads (t.capacity - t.pending.length)
    let t := { t with reads := t.reads + 1, pending := t.pending ++ r.bytes }
    match r.signal with
    | .endOfStream => .inl { t with exhausted := true }
    | .readError => .inl { t with stickyError := some .SourceReadError }
    | .moreDataMayFollow =>
      if r.bytes = [] then
        if threshold < t.emptyReads + 1 then
          .inr (false, { t with emptyReads := t.emptyReads + 1,
                                stickyError := some .SourceNoProgress, token := none })
        else .inl { t with emptyReads := t.emptyReads + 1 }
      else .inl { t with emptyReads := 0 }

/-- Modelled from the spec: the driver loop of `advance()`; the scanner's
source is not available. `boundary` is the boundary function, `source` the byte
source, `threshold` the no-progress threshold and `budget` the retry budget;
`fuel` bounds the number of passes through the loop. The result is the value
`advance()` returns and the state it leaves.

1. With buffered bytes, or a source known to be exhausted (or to have failed),
   the boundary function decides on the buffered bytes.
2. Fatal: the error becomes sticky and the result is false.
3. A token: the bytes are consumed, the token is exposed, the result is true.
   Continue without a token is the clean end: the result is false.
4. NeedMoreData while the source is exhausted: the stall counter goes up;
   beyond the budget the fault BoundaryContractViolation is raised, otherwise
   the loop ends cleanly with false and no error.
5. NeedMoreData while more bytes may exist, or nothing buffered yet:
   `fillStep`, then back to step 1. -/
def advanceLoop (boundary : List Nat → Bool → Decision) (source : ByteSource)
    (threshold budget : Nat) : Nat → Tokenizer → Option (Bool × Tokenizer)
  | 0, _ => none
  | fuel + 1, t =>
    let ended := t.exhausted || t.stickyError.isSome
    let more : Option (Bool × Tokenizer) :=
      match fillStep source threshold t with
      | .inl t1 => advanceLoop boundary source threshold budget fuel t1
      | .inr res => some res
    if t.pending ≠ [] ∨ ended = true then
      let d := boundary t.pending ended
      match d.outcome with
      | .Fatal kind => some (false, { t with stickyError := some kind, token := none })
      | .Continue =>
        match d.tokenSpan with
        | some tok =>
          some (true, { t with pending := t.pending.drop d.bytesToConsume,
                               token := some tok, stalls := 0 })
        | none => some (false, { t with token := none })
      | .NeedMoreData =>
        if ended = true then
          if budget < t.stalls + 1 then
            some (false, { t with stalls := t.stalls + 1,
                                  stickyError := some .BoundaryContractViolation,
                                  token := none })
          else some (false, { t with stalls := t.stalls + 1, token := none })
        else more
    else more

/-- Modelled from the spec: `advance()`; the scanner's source is not available.
After a fatal error every call returns false; a recorded read error still lets
the loop drain what is buffered. -/
def advance (boundary : List Nat → Bool → Decision) (source : ByteSource)
    (threshold budget fuel : Nat) (t : Tokenizer) : Option (Bool × Tokenizer) :=
  match t.stickyError with
  | none => advanceLoop boundary source threshold budget fuel t
  | some kind =>
    if kind = .SourceReadError then advanceLoop boundary source threshold budget fuel t
    else some (false, { t with token := none })

/-- Modelled from the spec: the boundary function MessageSplitter as the
tokenizer sees it, the triple returned by `ScanMessage` read as a decision:
an error is Fatal(UnexpectedEndOfStream), a token or the clean end is Continue,
and `(0, nil, nil)` on anything else is NeedMoreData; the scanner's source is
not available. -/
def messageSplitter (va vt : List Nat → Bool) (data : List Nat) (atEOF : Bool) : Decision :=
  match ScanMessage va vt data atEOF with
  | .ok (n, tok, none) =>
    { bytesToConsume := n.toNat, tokenSpan := tok,
      outcome := if n = 0 ∧ tok = none ∧ ¬ (atEOF = true ∧ data = [])
        then .NeedMoreData else .Continue }
  | _ => { bytesToConsume := 0, tokenSpan := none, outcome := .Fatal .UnexpectedEndOfStream }

/-- Modelled from the spec: `lastError()`, the sticky error; the scanner's
source is not available. -/
def lastError (t : Tokenizer) : Option ErrorKind := t.stickyError

/-- The reader `endlessZeros` of scan_test.go, whose `Read` is `return 0, nil`
on every call: zero bytes, no error and no end of stream, whatever the number
of reads made before and the room offered. -/
def endlessZeros : ByteSource := fun _ _ => { bytes := [], signal := .moreDataMayFollow }

/-! ## Basic facts about the library operations -/

theorem indexByte?_lt {c : Nat} {s : List Nat} {k : Nat}
    (h : indexByte? c s = some k) : k < s.length := by
  induction s generalizing k with
  | nil => simp [indexByte?] at h
  | cons x xs ih =>
    simp only [indexByte?] at h
    split at h
    · simp at h; subst h; simp
    · cases h2 : indexByte? c xs with
      | none => simp [h2] at h
      | some j =>
        simp [h2] at h; subst h
        have := ih h2
        simp; omega

theorem indexByte?_get {c : Nat} {s : List Nat} {k : Nat}
    (h : indexByte? c s = some k) : s[k]? = some c := by
  induction s generalizing k with
  | nil => simp [indexByte?] at h
  | cons x xs ih =>
    simp only [indexByte?] at h
    split at h
    · simp at h; subst h; simp_all
    · cases h2 : indexByte? c xs with
      | none => simp [h2] at h
      | some j =>
        simp [h2] at h; subst h
        simpa using ih h2

theorem indexByte?_not_mem_take {c : Nat} {s : List Nat} {k : Nat}
    (h : indexByte? c s = some k) : c ∉ s.take k := by
  induction s generalizing k with
  | nil => simp
  | cons x xs ih =>
    simp only [indexByte?] at h
    split at h
    · simp at h; subst h; simp
    · rename_i hx
      cases h2 : indexByte? c xs with
      | none => simp [h2] at h
      | some j =>
        simp [h2] at h; subst h
        have := ih h2
        simp [List.take_succ_cons]
        exact ⟨fun e => hx e.symm, this⟩

theorem indexByte?_append {c : Nat} (pre post : List Nat) (h : c ∉ pre) :
    indexByte? c (pre ++ c :: post) = some pre.length := by
  induction pre with
  | nil => simp [indexByte?]
  | cons x xs ih =>
    simp only [List.mem_cons, not_or] at h
    have hx : ¬ x = c := fun e => h.1 e.symm
    simp [indexByte?, hx, ih h.2]

theorem indexByte?_none {c : Nat} {s : List Nat} :
    indexByte? c s = none ↔ c ∉ s := by
  induction s with
  | nil => simp [indexByte?]
  | cons x xs ih =>
    simp only [indexByte?]
    split
    · rename_i hx; subst hx; simp
    · rename_i hx
      simp only [Option.map_eq_none', ih, List.mem_cons, not_or]
      exact ⟨fun h => ⟨fun e => hx e.symm, h⟩, fun h => h.2⟩

theorem indexByte?_split {c : Nat} {s : List Nat} {k : Nat}
    (h : indexByte? c s = some k) : s = s.take k ++ c :: s.drop (k + 1) := by
  have h1 := indexByte?_lt h
  have h2 := indexByte?_get h
  have h3 : s.drop k = c :: s.drop (k + 1) := by
    rw [List.getElem?_eq_getElem h1] at h2
    rw [List.drop_eq_getElem_cons h1]
    simp at h2
    rw [h2]
  calc s = s.take k ++ s.drop k := (List.take_append_drop k s).symm
    _ = s.take k ++ c :: s.drop (k + 1) := by rw [h3]

theorem indexByte?_local {c : Nat} {s t : List Nat} {k : Nat}
    (h : indexByte? c s = some k) (ht : t.take (k + 1) = s.take (k + 1)) :
    indexByte? c t = some k := by
  have h1 := indexByte?_lt h
  have h2 := indexByte?_get h
  have h3 := indexByte?_not_mem_take h
  have e1 : s.take (k + 1) = s.take k ++ [c] := by
    rw [List.take_succ, h2]; rfl
  have e2 : t = s.take k ++ c :: t.drop (k + 1) := by
    calc t = t.take (k + 1) ++ t.drop (k + 1) := (List.take_append_drop _ t).symm
      _ = s.take k ++ c :: t.drop (k + 1) := by rw [ht, e1]; simp
  have e3 : (s.take k).length = k := by simp; omega
  have := indexByte?_append (s.take k) (t.drop (k + 1)) h3
  rw [← e2, e3] at this
  exact this

theorem indexOf?_starts {sep s : List Nat} {k : Nat}
    (h : indexOf? sep s = some k) : sep <+: s.drop k := by
  induction s generalizing k with
  | nil =>
    simp only [indexOf?] at h
    split at h
    · rename_i e; subst e; simp
    · simp at h
  | cons x xs ih =>
    simp only [indexOf?] at h
    split at h
    · rename_i hp
      simp at h; subst h
      simpa using List.isPrefixOf_iff_prefix.mp hp
    · cases h2 : indexOf? sep xs with
      | none => simp [h2] at h
      | some j =>
        simp [h2] at h; subst h
        simpa using ih h2

theorem indexOf?_le {sep s : List Nat} {k : Nat}
    (h : indexOf? sep s = some k) : k + sep.length ≤ s.length := by
  have h1 := (indexOf?_starts h).length_le
  have h2 : k ≤ s.length := by
    induction s generalizing k with
    | nil =>
      simp only [indexOf?] at h
      split at h <;> simp at h
      omega
    | cons x xs ih =>
      simp only [indexOf?] at h
      split at h
      · simp at h; omega
      · cases h2 : indexOf? sep xs with
        | none => simp [h2] at h
        | some j =>
          simp [h2] at h; subst h
          have := ih h2 (indexOf?_starts h2).length_le
          simp; omega
  simp at h1
  omega

theorem indexOf?_zero_of_starts {sep s : List Nat} (h : sep <+: s) :
    indexOf? sep s = some 0 := by
  cases s with
  | nil =>
    have : sep = [] := List.prefix_nil.mp h
    simp [indexOf?, this]
  | cons x xs =>
    simp [indexOf?, List.isPrefixOf_iff_prefix.mpr h]

theorem indexOf?_local {sep s : List Nat} {k : Nat}
    (h : indexOf? sep s = some k) {t : List Nat}
    (ht : t.take (k + sep.length) = s.take (k + sep.length)) :
    indexOf? sep t = some k := by
  induction s generalizing k t with
  | nil =>
    simp only [indexOf?] at h
    split at h
    · rename_i e; subst e
      simp at h; subst h
      exact indexOf?_zero_of_starts (List.nil_prefix)
    · simp at h
  | cons x xs ih =>
    simp only [indexOf?] at h
    split at h
    · rename_i hp
      simp at h; subst h
      have hp2 := List.isPrefixOf_iff_prefix.mp hp
      apply indexOf?_zero_of_starts
      rw [List.prefix_iff_eq_take] at hp2 ⊢
      simp only [Nat.zero_add] at ht
      rw [ht]; exact hp2
    · rename_i hp
      cases h2 : indexOf? sep xs with
      | none => simp [h2] at h
      | some j =>
        simp [h2] at h; subst h
        have hlen := indexOf?_le h2
        have e1 : j + 1 + sep.length = (j + sep.length) + 1 := by omega
        rw [e1, List.take_succ_cons] at ht
        cases t with
        | nil => simp at ht
        | cons y ys =>
          rw [List.take_succ_cons] at ht
          simp only [List.cons.injEq] at ht
          obtain ⟨hy, hys⟩ := ht
          subst hy
          have hnp : ¬ sep.isPrefixOf (y :: ys) = true := by
            intro hq
            apply hp
            have hq2 := List.isPrefixOf_iff_prefix.mp hq
            apply List.isPrefixOf_iff_prefix.mpr
            rw [List.prefix_iff_eq_take] at hq2 ⊢
            have hm : sep.length ≤ j + sep.length + 1 := by omega
            have a1 : List.take sep.length (y :: ys)
                = List.take sep.length (List.take (j + sep.length + 1) (y :: ys)) := by
              rw [List.take_take, Nat.min_eq_left hm]
            have a2 : List.take sep.length (y :: xs)
                = List.take sep.length (List.take (j + sep.length + 1) (y :: xs)) := by
              rw [List.take_take, Nat.min_eq_left hm]
            rw [a2, List.take_succ_cons, ← hys, ← List.take_succ_cons, ← a1]
            exact hq2
          simp [indexOf?, hnp, ih h2 hys]

theorem indexOf?_single (c : Nat) (s : List Nat) :
    indexOf? [c] s = indexByte? c s := by
  induction s with
  | nil => simp [indexOf?, indexByte?]
  | cons x xs ih =>
    by_cases hx : x = c
    · subst hx; simp [indexOf?, indexByte?, List.isPrefixOf]
    · have hx2 : ¬ c = x := fun e => hx e.symm
      simp [indexOf?, indexByte?, List.isPrefixOf, hx, hx2, ih]

/-! ## Checked slices at in-range offsets -/

theorem sliceFrom_ok (data : List Nat) (k : Nat) (h : k ≤ data.length) :
    sliceFrom data (k : Int) = .ok (data.drop k) := by
  have : (k : Int) ≤ (data.length : Int) := by exact_mod_cast h
  simp [sliceFrom, this]

theorem slice_ok (data : List Nat) (lo hi : Nat) (h1 : lo ≤ hi)
    (h2 : hi ≤ data.length) :
    slice data (lo : Int) (hi : Int) = .ok ((data.drop lo).take (hi - lo)) := by
  have a : (lo : Int) ≤ (hi : Int) := by exact_mod_cast h1
  have b : (hi : Int) ≤ (data.length : Int) := by exact_mod_cast h2
  simp [slice, a, b]

theorem byteAt_ok (data : List Nat) (k : Nat) (b : Nat)
    (h : data[k]? = some b) : byteAt data (k : Int) = .ok b := by
  simp [byteAt, h]

theorem FindSeparatorAux_succ (va vt : List Nat → Bool) (fuel : Nat) (data : List Nat) :
    FindSeparatorAux va vt (fuel + 1) data =
      match firstCandidate va vt data with
      | .absent => .ok (-1, 0)
      | .retry t => (FindSeparatorAux va vt fuel (data.drop t)).map (offsetResult t)
      | .found s n => .ok ((s : Int), (n : Int)) := by
  rw [FindSeparatorAux]
  unfold firstCandidate bytesIndex
  cases h : indexOf? separatorPrefix data with
  | none => simp; rfl
  | some s =>
    have hle := indexOf?_le h
    have hlen : separatorPrefix.length = 5 := rfl
    rw [hlen] at hle
    have e1 : ((s : Int) + ((separatorPrefix.length : Nat) : Int)) = ((s + 5 : Nat) : Int) := by
      rw [hlen]; push_cast; rfl
    have hs : ¬ ((s : Int) < 0) := by omega
    simp only [hs, e1, sliceFrom_ok data (s + 5) hle]
    simp only [bind, Except.bind, pure, Except.pure, if_false]
    unfold bytesIndexByte parseTail
    cases ha : indexByte? 32 (data.drop (s + 5)) with
    | none => simp
    | some a =>
      have hal := indexByte?_lt ha
      simp only [List.length_drop] at hal
      have ha0 : ¬ ((a : Int) < 0) := by omega
      have e2 : (((s + 5 : Nat) : Int) + (a : Int)) = ((s + 5 + a : Nat) : Int) := by
        push_cast; rfl
      have e3 : (((s + 5 + a : Nat) : Int) + 1) = ((s + 5 + a + 1 : Nat) : Int) := by
        push_cast; rfl
      simp only [ha0, if_false, e2, e3]
      rw [slice_ok data (s + 5) (s + 5 + a) (by omega) (by omega),
        sliceFrom_ok data (s + 5 + a + 1) (by omega)]
      have e4 : s + 5 + a - (s + 5) = a := by omega
      simp only [e4]
      have e5 : s + 5 + (a + 1) = s + 5 + a + 1 := by omega
      have e6 : List.drop (a + 1) (List.drop (s + 5) data) = List.drop (s + 5 + a + 1) data := by
        rw [List.drop_drop]; congr 1
      by_cases hva : va (List.take a (List.drop (s + 5) data)) = true
      · simp only [hva, Bool.not_true, Bool.false_eq_true, if_false]
        rw [indexOf?_single, e6]
        cases he : indexByte? 10 (List.drop (s + 5 + a + 1) data) with
        | none => simp
        | some e =>
          have hel := indexByte?_lt he
          simp only [List.length_drop] at hel
          have he0 : ¬ ((e : Int) < 0) := by omega
          have hlt : s + 5 + a + e < data.length := by omega
          have e7 : (((s + 5 + a + 1 : Nat) : Int) + (e : Int) - 1) = ((s + 5 + a + e : Nat) : Int) := by
            push_cast; ring
          have e8 : (List.drop (s + 5) data)[a + e]? = data[s + 5 + a + e]? := by
            rw [List.getElem?_drop]; congr 1; omega
          have hb : data[s + 5 + a + e]? = some (data[s + 5 + a + e]) :=
            List.getElem?_eq_getElem hlt
          simp only [he0, if_false, e7, byteAt_ok data _ _ hb, e8]
          by_cases hcr : data[s + 5 + a + e] = 13
          · have hsp := indexByte?_get ha
            rw [List.getElem?_drop] at hsp
            have he1 : 1 ≤ e := by
              rcases Nat.eq_zero_or_pos e with h0 | h0
              · subst h0
                simp only [Nat.add_zero] at hb hcr
                rw [hb] at hsp
                simp at hsp
                omega
              · exact h0
            have e9 : (((s + 5 + a + 1 : Nat) : Int) + ((e : Int) - 1))
                = ((s + 5 + a + 1 + (e - 1) : Nat) : Int) := by
              push_cast [he1]; ring
            have e10 : s + 5 + a + 1 + (e - 1) - (s + 5 + a + 1) = e - 1 := by omega
            simp only [hcr, if_true, e9, hb, decide_True]
            rw [slice_ok data _ _ (by omega) (by omega), e10]
            by_cases hvt : vt (List.take (e - 1) (List.drop (s + 5 + a + 1) data)) = true
            · simp only [hvt, Bool.not_true, Bool.false_eq_true, if_false]
              simp
              omega
            · simp only [Bool.not_eq_true] at hvt
              simp only [hvt, Bool.not_false, if_true, e5]
              generalize FindSeparatorAux va vt fuel _ = r
              cases r with
              | error err => rfl
              | ok v =>
                simp only [Except.map, offsetResult]
                split <;> rfl
          · have e9 : (((s + 5 + a + 1 : Nat) : Int) + (e : Int))
                = ((s + 5 + a + 1 + e : Nat) : Int) := by
              push_cast; ring
            have e10 : s + 5 + a + 1 + e - (s + 5 + a + 1) = e := by omega
            have hcr2 : ¬ (data[s + 5 + a + e]? = some 13) := by
              rw [hb]; simpa using hcr
            simp only [hcr, if_false, e9, hcr2, decide_False, Bool.false_eq_true]
            rw [slice_ok data _ _ (by omega) (by omega), e10]
            by_cases hvt : vt (List.take e (List.drop (s + 5 + a + 1) data)) = true
            · simp only [hvt, Bool.not_true, Bool.false_eq_true, if_false]
              simp
              omega
            · simp only [Bool.not_eq_true] at hvt
              simp only [hvt, Bool.not_false, if_true, e5]
              generalize FindSeparatorAux va vt fuel _ = r
              cases r with
              | error err => rfl
              | ok v =>
                simp only [Except.map, offsetResult]
                split <;> rfl
      · simp only [Bool.not_eq_true] at hva
        simp only [hva, Bool.not_false, if_true, e5]
        generalize FindSeparatorAux va vt fuel _ = r
        cases r with
        | error err => rfl
        | ok v =>
          simp only [Except.map, offsetResult]
          split <;> rfl

/-! ## Bounds on one pass -/

theorem parseTail_retry_bounds {va vt : List Nat → Bool} {tail : List Nat} {t : Nat}
    (h : parseTail va vt tail = .retry t) : 1 ≤ t ∧ t ≤ tail.length := by
  unfold parseTail at h
  cases ha : indexByte? 32 tail with
  | none => simp [ha] at h
  | some a =>
    have hal := indexByte?_lt ha
    simp only [ha] at h
    by_cases hva : va (List.take a tail) = true
    · simp only [hva, Bool.not_true, Bool.false_eq_true, if_false] at h
      cases he : indexByte? 10 (List.drop (a + 1) tail) with
      | none => simp [he] at h
      | some e =>
        simp only [he] at h
        by_cases hcr : tail[a + e]? = some 13 <;>
          by_cases hvt : vt (List.take (if decide (tail[a + e]? = some 13) = true
              then e - 1 else e) (List.drop (a + 1) tail)) = true <;>
          simp [hcr, hvt] at h hvt <;> simp [hvt] at h <;> omega
    · simp only [Bool.not_eq_true] at hva
      simp only [hva, Bool.not_false, if_true, Candidate.retry.injEq] at h
      omega

theorem firstCandidate_retry_bounds {va vt : List Nat → Bool} {data : List Nat} {t : Nat}
    (h : firstCandidate va vt data = .retry t) : 6 ≤ t ∧ t ≤ data.length := by
  unfold firstCandidate at h
  cases hs : indexOf? separatorPrefix data with
  | none => simp [hs] at h
  | some s =>
    have hle := indexOf?_le hs
    have hlen : separatorPrefix.length = 5 := rfl
    simp only [hs] at h
    cases hp : parseTail va vt (List.drop (s + 5) data) with
    | absent => simp [hp] at h
    | found a b => simp [hp] at h
    | retry u =>
      have hb := parseTail_retry_bounds hp
      simp only [List.length_drop] at hb
      simp [hp] at h
      omega

/-! ## The recursion of `FindSeparator` -/

theorem FindSeparatorAux_fuel (va vt : List Nat → Bool) :
    ∀ (fuel : Nat) (data : List Nat), data.length < fuel →
      FindSeparatorAux va vt fuel data = FindSeparatorAux va vt (data.length + 1) data := by
  intro fuel
  induction fuel using Nat.strong_induction_on with
  | _ fuel ih =>
    intro data hlt
    cases fuel with
    | zero => omega
    | succ f =>
      rw [FindSeparatorAux_succ, FindSeparatorAux_succ]
      cases hc : firstCandidate va vt data with
      | absent => rfl
      | found s n => rfl
      | retry t =>
        have hb := firstCandidate_retry_bounds hc
        have hl : (List.drop t data).length < f := by
          simp only [List.length_drop]; omega
        have hl2 : (List.drop t data).length < data.length := by
          simp only [List.length_drop]; omega
        simp only
        rw [ih f (Nat.lt_succ_self f) _ hl, ih data.length (by omega) _ hl2]

/-- The recursion equation of `FindSeparator`: one pass over the first
candidate, then the same function on `data[timeStart:]`. -/
theorem FindSeparator_eq (va vt : List Nat → Bool) (data : List Nat) :
    FindSeparator va vt data =
      match firstCandidate va vt data with
      | .absent => .ok (-1, 0)
      | .retry t => (FindSeparator va vt (data.drop t)).map (offsetResult t)
      | .found s n => .ok ((s : Int), (n : Int)) := by
  unfold FindSeparator
  rw [FindSeparatorAux_succ]
  cases hc : firstCandidate va vt data with
  | absent => rfl
  | found s n => rfl
  | retry t =>
    have hb := firstCandidate_retry_bounds hc
    have hl2 : (List.drop t data).length < data.length := by
      simp only [List.length_drop]; omega
    simp only
    rw [FindSeparatorAux_fuel va vt data.length _ hl2]

/-- Induction along the passes of `FindSeparator`: it always returns, and its
result satisfies every property that holds for an outright answer and is
carried back through a retry. -/
theorem FindSeparator_induct (va vt : List Nat → Bool)
    (P : List Nat → Int × Int → Prop)
    (habsent : ∀ data, firstCandidate va vt data = .absent → P data (-1, 0))
    (hfound : ∀ data s n, firstCandidate va vt data = .found s n →
      P data ((s : Int), (n : Int)))
    (hretry : ∀ data t r, firstCandidate va vt data = .retry t →
      FindSeparator va vt (data.drop t) = .ok r → P (data.drop t) r →
      P data (offsetResult t r)) :
    ∀ data, ∃ r, FindSeparator va vt data = .ok r ∧ P data r := by
  intro data
  generalize hn : data.length = n
  induction n using Nat.strong_induction_on generalizing data with
  | _ n ih =>
    rw [FindSeparator_eq]
    cases hc : firstCandidate va vt data with
    | absent => exact ⟨_, rfl, habsent data hc⟩
    | found s k => exact ⟨_, rfl, hfound data s k hc⟩
    | retry t =>
      have hb := firstCandidate_retry_bounds hc
      have hl2 : (List.drop t data).length < n := by
        simp only [List.length_drop]; omega
      obtain ⟨r, hr, hP⟩ := ih _ hl2 (data.drop t) rfl
      refine ⟨offsetResult t r, ?_, hretry data t r hc hr hP⟩
      simp only [hr, Except.map]

/-! ## The shape of the span seen by one pass -/

theorem getElem?_append_length (pre : List Nat) (x : Nat) (post : List Nat) :
    (pre ++ x :: post)[pre.length]? = some x := by
  induction pre with
  | nil => simp
  | cons y ys ih => simpa using ih

theorem getElem?_append_add (pre l : List Nat) (k : Nat) :
    (pre ++ l)[pre.length + k]? = l[k]? := by
  simp [List.getElem?_append_right]

/-- On a tail `addr ++ " " ++ ts ++ eol ++ post` whose address is accepted, one
pass stops at `eol` and the timestamp validator decides between a separator
and a retry. -/
theorem parseTail_wellformed (va vt : List Nat → Bool) (addr ts eol post : List Nat)
    (h32 : 32 ∉ addr) (hva : va addr = true) (h10 : 10 ∉ ts)
    (heol : (eol = [10] ∧ ∀ ts1, ts ≠ ts1 ++ [13]) ∨ eol = [13, 10]) :
    parseTail va vt (addr ++ 32 :: (ts ++ eol ++ post)) =
      if vt ts = true then .found 0 (addr.length + 1 + ts.length + eol.length)
      else .retry (addr.length + 1) := by
  unfold parseTail
  rw [indexByte?_append addr _ h32]
  have t1 : List.take addr.length (addr ++ 32 :: (ts ++ eol ++ post)) = addr := by simp
  have t2 : List.drop (addr.length + 1) (addr ++ 32 :: (ts ++ eol ++ post))
      = ts ++ eol ++ post := by
    rw [List.drop_append_eq_append_drop]; simp
  simp only [t1, t2, hva, Bool.not_true, Bool.false_eq_true, if_false]
  rcases heol with ⟨he, hcr⟩ | he
  · subst he
    have i1 : indexByte? 10 (ts ++ [10] ++ post) = some ts.length := by
      have := indexByte?_append ts post h10
      simpa using this
    have c1 : ¬ ((addr ++ 32 :: (ts ++ [10] ++ post))[addr.length + ts.length]? = some 13) := by
      rw [getElem?_append_add]
      rcases List.eq_nil_or_concat ts with hnil | ⟨ts1, l, hl⟩
      · subst hnil; simp
      · rw [List.concat_eq_append] at hl
        subst hl
        have hl13 : l ≠ 13 := by
          intro e; subst e; exact hcr ts1 rfl
        have e2 : (32 :: (ts1 ++ [l] ++ [10] ++ post))[(ts1 ++ [l]).length]?
            = (ts1 ++ l :: (10 :: post))[ts1.length]? := by
          simp
        rw [e2, getElem?_append_length]
        simpa using hl13
    simp only [i1, c1, decide_False, Bool.false_eq_true, if_false]
    by_cases hvt : vt ts = true
    · simp [hvt]
    · simp only [Bool.not_eq_true] at hvt
      simp [hvt]
  · subst he
    have i1 : indexByte? 10 (ts ++ [13, 10] ++ post) = some (ts.length + 1) := by
      have h10b : 10 ∉ ts ++ [13] := by simp [h10]
      have := indexByte?_append (ts ++ [13]) post h10b
      simpa using this
    have c1 : (addr ++ 32 :: (ts ++ [13, 10] ++ post))[addr.length + (ts.length + 1)]?
        = some 13 := by
      rw [getElem?_append_add]
      have e2 : (32 :: (ts ++ [13, 10] ++ post))[ts.length + 1]?
          = (ts ++ 13 :: (10 :: post))[ts.length]? := by
        simp
      rw [e2, getElem?_append_length]
    simp only [i1, c1, decide_True, if_true, Nat.add_sub_cancel]
    by_cases hvt : vt ts = true
    · simp [hvt]
    · simp only [Bool.not_eq_true] at hvt
      simp [hvt]

/-- Every tail falls under one of four shapes, which fix what one pass does. -/
theorem parseTail_shape (va vt : List Nat → Bool) (tail : List Nat) :
    (32 ∉ tail ∧ parseTail va vt tail = .absent) ∨
    ∃ addr rest, tail = addr ++ 32 :: rest ∧ 32 ∉ addr ∧
      ((va addr = false ∧ parseTail va vt tail = .retry (addr.length + 1)) ∨
       (va addr = true ∧ 10 ∉ rest ∧ parseTail va vt tail = .absent) ∨
       (va addr = true ∧ ∃ ts eol post, rest = ts ++ eol ++ post ∧ 10 ∉ ts ∧
          ((eol = [10] ∧ ∀ ts1, ts ≠ ts1 ++ [13]) ∨ eol = [13, 10]))) := by
  cases ha : indexByte? 32 tail with
  | none =>
    left
    refine ⟨indexByte?_none.mp ha, ?_⟩
    simp [parseTail, ha]
  | some a =>
    right
    have hal := indexByte?_lt ha
    have hsplit := indexByte?_split ha
    have hnm := indexByte?_not_mem_take ha
    have hlen : (List.take a tail).length = a := by simp; omega
    refine ⟨List.take a tail, List.drop (a + 1) tail, hsplit, hnm, ?_⟩
    by_cases hva : va (List.take a tail) = true
    · right
      cases he : indexByte? 10 (List.drop (a + 1) tail) with
      | none =>
        left
        refine ⟨hva, indexByte?_none.mp he, ?_⟩
        simp [parseTail, ha, hva, he]
      | some e =>
        right
        refine ⟨hva, ?_⟩
        have hel := indexByte?_lt he
        have hes := indexByte?_split he
        have hen := indexByte?_not_mem_take he
        by_cases hcr : ∃ ts1, List.take e (List.drop (a + 1) tail) = ts1 ++ [13]
        · obtain ⟨ts1, h1⟩ := hcr
          refine ⟨ts1, [13, 10], List.drop (e + 1) (List.drop (a + 1) tail), ?_, ?_, Or.inr rfl⟩
          · rw [h1] at hes
            simpa using hes
          · rw [h1] at hen
            intro hm
            exact hen (List.mem_append_left _ hm)
        · refine ⟨List.take e (List.drop (a + 1) tail), [10],
            List.drop (e + 1) (List.drop (a + 1) tail), ?_, hen, Or.inl ⟨rfl, ?_⟩⟩
          · simpa using hes
          · intro ts1 h1
            exact hcr ⟨ts1, h1⟩
    · left
      simp only [Bool.not_eq_true] at hva
      refine ⟨hva, ?_⟩
      simp [parseTail, ha, hva, hlen]

/-- The first candidate of a span: either the prefix does not occur, or the span
splits at its first occurrence and one pass is decided by the bytes after it. -/
theorem firstCandidate_shape (va vt : List Nat → Bool) (data : List Nat) :
    (indexOf? separatorPrefix data = none ∧ firstCandidate va vt data = .absent) ∨
    ∃ pre tail, data = pre ++ separatorPrefix ++ tail ∧
      indexOf? separatorPrefix data = some pre.length ∧
      data.drop (pre.length + 5) = tail ∧
      firstCandidate va vt data =
        match parseTail va vt tail with
        | .absent => .absent
        | .retry t => .retry (pre.length + 5 + t)
        | .found _ n => .found pre.length (5 + n) := by
  cases hs : indexOf? separatorPrefix data with
  | none =>
    left
    exact ⟨rfl, by simp [firstCandidate, hs]⟩
  | some s =>
    right
    have hle := indexOf?_le hs
    have hp := indexOf?_starts hs
    have hlen : separatorPrefix.length = 5 := rfl
    rw [hlen] at hle
    have hl : (List.take s data).length = s := by simp; omega
    have hd : List.drop s data = separatorPrefix ++ List.drop (s + 5) data := by
      obtain ⟨u, hu⟩ := hp
      have : List.drop (s + 5) data = u := by
        have h5 : List.drop 5 (List.drop s data) = u := by
          rw [← hu]; simp [separatorPrefix]
        rw [List.drop_drop] at h5
        rw [← h5]
      rw [this, hu]
    refine ⟨List.take s data, List.drop (s + 5) data, ?_, ?_, ?_, ?_⟩
    · calc data = List.take s data ++ List.drop s data := (List.take_append_drop s data).symm
        _ = List.take s data ++ separatorPrefix ++ List.drop (s + 5) data := by
          rw [hd]; simp
    · rw [hl]
    · rw [hl]
    · rw [hl]; simp [firstCandidate, hs]

/-- One pass on `pre ++ "From " ++ tail` when the prefix first occurs at the end
of `pre`. -/
theorem firstCandidate_of_index (va vt : List Nat → Bool) (pre tail : List Nat)
    (hidx : indexOf? separatorPrefix (pre ++ separatorPrefix ++ tail) = some pre.length) :
    firstCandidate va vt (pre ++ separatorPrefix ++ tail) =
      match parseTail va vt tail with
      | .absent => .absent
      | .retry t => .retry (pre.length + 5 + t)
      | .found _ n => .found pre.length (5 + n) := by
  have hd : List.drop (pre.length + 5) (pre ++ separatorPrefix ++ tail) = tail := by
    have : pre.length + 5 = (pre ++ separatorPrefix).length := by simp [separatorPrefix]
    rw [this, List.drop_left]
  simp only [firstCandidate, hidx, hd]

/-- The position of the first prefix does not depend on the bytes after it. -/
theorem indexOf?_tail_irrelevant (pre tail tail2 : List Nat)
    (hidx : indexOf? separatorPrefix (pre ++ separatorPrefix ++ tail) = some pre.length) :
    indexOf? separatorPrefix (pre ++ separatorPrefix ++ tail2) = some pre.length := by
  apply indexOf?_local hidx
  have : pre.length + separatorPrefix.length = (pre ++ separatorPrefix).length := by simp
  rw [this, List.take_left, List.take_left]

/-- A span that starts with the prefix has its first candidate at offset 0. -/
theorem indexOf?_at_head (tail : List Nat) :
    indexOf? separatorPrefix (([] : List Nat) ++ separatorPrefix ++ tail)
      = some ([] : List Nat).length := by
  apply indexOf?_zero_of_starts
  simp

theorem firstCandidate_found {va vt : List Nat → Bool} {data : List Nat} {s n : Nat}
    (h : firstCandidate va vt data = .found s n) :
    ∃ pre addr ts eol post,
      data = pre ++ separatorPrefix ++ (addr ++ 32 :: (ts ++ eol ++ post)) ∧
      pre.length = s ∧
      indexOf? separatorPrefix data = some s ∧
      n = 5 + (addr.length + 1 + ts.length + eol.length) ∧
      32 ∉ addr ∧ va addr = true ∧ 10 ∉ ts ∧ vt ts = true ∧
      ((eol = [10] ∧ ∀ ts1, ts ≠ ts1 ++ [13]) ∨ eol = [13, 10]) := by
  rcases firstCandidate_shape va vt data with ⟨_, h0⟩ | ⟨pre, tail, hdata, hidx, _, hfc⟩
  · rw [h0] at h; cases h
  · rw [hfc] at h
    rcases parseTail_shape va vt tail with ⟨_, h1⟩ | ⟨addr, rest, htail, h32, hcase⟩
    · rw [h1] at h; cases h
    · rcases hcase with ⟨_, h1⟩ | ⟨_, _, h1⟩ | ⟨hva, ts, eol, post, hrest, h10, heol⟩
      · rw [h1] at h; cases h
      · rw [h1] at h; cases h
      · have hw := parseTail_wellformed va vt addr ts eol post h32 hva h10 heol
        rw [← hrest, ← htail] at hw
        rw [hw] at h
        by_cases hvt : vt ts = true
        · simp only [hvt, if_true, Candidate.found.injEq] at h
          refine ⟨pre, addr, ts, eol, post, ?_, h.1, ?_, h.2.symm, h32, hva, h10, hvt, heol⟩
          · rw [hdata, htail, hrest]
          · rw [hidx, h.1]
        · simp only [hvt, if_false] at h
          cases h

theorem firstCandidate_retry {va vt : List Nat → Bool} {data : List Nat} {t : Nat}
    (h : firstCandidate va vt data = .retry t) :
    ∃ pre addr rest,
      data = pre ++ separatorPrefix ++ (addr ++ 32 :: rest) ∧
      indexOf? separatorPrefix data = some pre.length ∧
      t = pre.length + 5 + (addr.length + 1) ∧
      32 ∉ addr ∧
      (va addr = false ∨
       (va addr = true ∧ ∃ ts eol post, rest = ts ++ eol ++ post ∧ 10 ∉ ts ∧
          vt ts = false ∧
          ((eol = [10] ∧ ∀ ts1, ts ≠ ts1 ++ [13]) ∨ eol = [13, 10]))) := by
  rcases firstCandidate_shape va vt data with ⟨_, h0⟩ | ⟨pre, tail, hdata, hidx, _, hfc⟩
  · rw [h0] at h; cases h
  · rw [hfc] at h
    rcases parseTail_shape va vt tail with ⟨_, h1⟩ | ⟨addr, rest, htail, h32, hcase⟩
    · rw [h1] at h; cases h
    · rcases hcase with ⟨hva, h1⟩ | ⟨_, _, h1⟩ | ⟨hva, ts, eol, post, hrest, h10, heol⟩
      · rw [h1] at h
        simp only [Candidate.retry.injEq] at h
        exact ⟨pre, addr, rest, by rw [hdata, htail], hidx, h.symm, h32, Or.inl hva⟩
      · rw [h1] at h; cases h
      · have hw := parseTail_wellformed va vt addr ts eol post h32 hva h10 heol
        rw [← hrest, ← htail] at hw
        rw [hw] at h
        by_cases hvt : vt ts = true
        · simp only [hvt, if_true] at h
          cases h
        · simp only [Bool.not_eq_true] at hvt
          simp only [hvt, Bool.false_eq_true, if_false, Candidate.retry.injEq] at h
          exact ⟨pre, addr, rest, by rw [hdata, htail], hidx, h.symm, h32,
            Or.inr ⟨hva, ts, eol, post, hrest, h10, hvt, heol⟩⟩

/-! ## Soundness of the search -/

theorem AcceptedAt.separatorAt {va vt : List Nat → Bool} {data : List Nat} {p n : Nat}
    (h : AcceptedAt va vt data p n) : SeparatorAt va vt data p n := by
  obtain ⟨addr, ts, eol, post, hd, hn, h32, hva, h10, hvt, heol⟩ := h
  refine ⟨addr, ts, eol, post, ?_, ?_, h32, hva, h10, hvt, ?_⟩
  · rw [hd]; simp
  · rw [hn]; simp [separatorPrefix]; omega
  · rcases heol with ⟨h, _⟩ | h
    · exact Or.inl h
    · exact Or.inr h

theorem AcceptedAt.bounds {va vt : List Nat → Bool} {data : List Nat} {p n : Nat}
    (h : AcceptedAt va vt data p n) : 7 ≤ n ∧ p + n ≤ data.length := by
  obtain ⟨addr, ts, eol, post, hd, hn, _, _, _, _, heol⟩ := h
  have hl := congrArg List.length hd
  simp [separatorPrefix] at hl
  have he : 1 ≤ eol.length := by
    rcases heol with ⟨h, _⟩ | h <;> simp [h]
  omega

theorem AcceptedAt.shift {va vt : List Nat → Bool} {data : List Nat} {t p n : Nat}
    (h : AcceptedAt va vt (data.drop t) p n) : AcceptedAt va vt data (t + p) n := by
  obtain ⟨addr, ts, eol, post, hd, rest⟩ := h
  refine ⟨addr, ts, eol, post, ?_, rest⟩
  rw [← hd, List.drop_drop]

/-- An accepted line is found at offset 0 of the span that starts with it. -/
theorem AcceptedAt.find_drop {va vt : List Nat → Bool} {data : List Nat} {p n : Nat}
    (h : AcceptedAt va vt data p n) :
    FindSeparator va vt (data.drop p) = .ok (0, (n : Int)) := by
  obtain ⟨addr, ts, eol, post, hd, hn, h32, hva, h10, hvt, heol⟩ := h
  rw [FindSeparator_eq, hd]
  have hfc := firstCandidate_of_index va vt [] (addr ++ 32 :: (ts ++ eol ++ post))
    (indexOf?_at_head _)
  simp only [List.nil_append] at hfc
  rw [hfc, parseTail_wellformed va vt addr ts eol post h32 hva h10 heol]
  simp [hvt, hn]

theorem firstCandidate_found_accepted {va vt : List Nat → Bool} {data : List Nat} {s n : Nat}
    (h : firstCandidate va vt data = .found s n) : AcceptedAt va vt data s n := by
  obtain ⟨pre, addr, ts, eol, post, hdata, hpre, _, hn, h32, hva, h10, hvt, heol⟩ :=
    firstCandidate_found h
  refine ⟨addr, ts, eol, post, ?_, hn, h32, hva, h10, hvt, heol⟩
  rw [hdata, ← hpre, List.append_assoc, List.drop_left]

/-- The search always returns; its answer is `(-1, 0)` or an accepted line. -/
theorem FindSeparator_sound (va vt : List Nat → Bool) (data : List Nat) :
    ∃ r, FindSeparator va vt data = .ok r ∧
      (r = (-1, 0) ∨ ∃ p n : Nat, r = ((p : Int), (n : Int)) ∧ AcceptedAt va vt data p n) := by
  apply FindSeparator_induct va vt
    (fun data r => r = (-1, 0) ∨
      ∃ p n : Nat, r = ((p : Int), (n : Int)) ∧ AcceptedAt va vt data p n)
  · intro data _
    exact Or.inl rfl
  · intro data s n h
    exact Or.inr ⟨s, n, rfl, firstCandidate_found_accepted h⟩
  · intro data t r _ _ hP
    rcases hP with h | ⟨p, n, hr, hacc⟩
    · left; subst h; simp [offsetResult]
    · right
      refine ⟨t + p, n, ?_, hacc.shift⟩
      subst hr
      have : ¬ ((p : Int) = -1) := by omega
      simp [offsetResult, this]

/-! ## Inserting a carriage return before the terminating linefeed -/

theorem parseTail_bad_addr (va vt : List Nat → Bool) (addr rest : List Nat)
    (h32 : 32 ∉ addr) (hva : va addr = false) :
    parseTail va vt (addr ++ 32 :: rest) = .retry (addr.length + 1) := by
  unfold parseTail
  rw [indexByte?_append addr _ h32]
  simp [hva]

/-- A rejected first candidate stays rejected when a carriage return is put
before a later linefeed that has none. -/
theorem parseTail_retry_insert (va vt : List Nat → Bool) (addr rest : List Nat)
    (h32 : 32 ∉ addr)
    (hcase : va addr = false ∨
      (va addr = true ∧ ∃ ts eol post, rest = ts ++ eol ++ post ∧ 10 ∉ ts ∧
        vt ts = false ∧ ((eol = [10] ∧ ∀ ts1, ts ≠ ts1 ++ [13]) ∨ eol = [13, 10])))
    (A B : List Nat) (hrest : rest = A ++ 10 :: B) (hA : ∀ A1, A ≠ A1 ++ [13]) :
    parseTail va vt (addr ++ 32 :: (A ++ 13 :: 10 :: B)) = .retry (addr.length + 1) := by
  rcases hcase with hva | ⟨hva, ts, eol, post, hr, h10, hvt, heol⟩
  · exact parseTail_bad_addr va vt addr _ h32 hva
  · have hal : ts ++ (eol ++ post) = A ++ 10 :: B := by
      rw [← hrest, hr]; simp
    rcases List.append_eq_append_iff.mp hal with ⟨C, hC1, hC2⟩ | ⟨C, hC1, hC2⟩
    · -- A = ts ++ C
      rw [hC1]
      rcases heol with ⟨he, hcr⟩ | he
      · rw [he] at hC2
        cases C with
        | nil =>
          have hB : post = B := by simpa using hC2
          have := parseTail_wellformed va vt addr ts [13, 10] B h32 hva h10 (Or.inr rfl)
          simp only [hvt, Bool.false_eq_true, if_false] at this
          simpa using this
        | cons c C1 =>
          simp only [List.singleton_append, List.cons_append, List.cons.injEq] at hC2
          obtain ⟨hc, hpost⟩ := hC2
          have := parseTail_wellformed va vt addr ts [10] (C1 ++ 13 :: 10 :: B) h32 hva h10
            (Or.inl ⟨rfl, hcr⟩)
          simp only [hvt, Bool.false_eq_true, if_false] at this
          rw [← hc]
          simpa using this
      · rw [he] at hC2
        cases C with
        | nil => simp at hC2
        | cons c C1 =>
          cases C1 with
          | nil =>
            simp only [List.cons_append, List.nil_append, List.cons.injEq] at hC2
            exfalso
            apply hA ts
            rw [hC1, ← hC2.1]
          | cons c2 C2 =>
            simp only [List.cons_append, List.nil_append, List.cons.injEq] at hC2
            obtain ⟨hc, hc2, hpost⟩ := hC2
            have := parseTail_wellformed va vt addr ts [13, 10] (C2 ++ 13 :: 10 :: B) h32 hva
              h10 (Or.inr rfl)
            simp only [hvt, Bool.false_eq_true, if_false] at this
            rw [← hc, ← hc2]
            simpa using this
    · -- ts = A ++ C
      cases C with
      | nil =>
        have hts : ts = A := by simpa using hC1
        rw [← hts]
        rcases heol with ⟨he, hcr⟩ | he
        · rw [he] at hC2
          have hB : B = post := by simpa using hC2
          rw [hB]
          have := parseTail_wellformed va vt addr ts [13, 10] post h32 hva h10 (Or.inr rfl)
          simp only [hvt, Bool.false_eq_true, if_false] at this
          simpa using this
        · rw [he] at hC2
          simp at hC2
      | cons c C1 =>
        simp only [List.cons_append, List.cons.injEq] at hC2
        exfalso
        apply h10
        rw [hC1, ← hC2.1]
        simp

/-- Putting a carriage return before the bare linefeed that ends the found
separator leaves the found offset unchanged and adds one byte to the length. -/
theorem FindSeparator_insert_cr (va vt : List Nat → Bool) (B : List Nat) :
    ∀ (A : List Nat) (p n : Nat),
      FindSeparator va vt (A ++ 10 :: B) = .ok ((p : Int), (n : Int)) →
      p + n = A.length + 1 → (∀ A1, A ≠ A1 ++ [13]) →
      FindSeparator va vt (A ++ 13 :: 10 :: B) = .ok ((p : Int), ((n + 1 : Nat) : Int)) := by
  intro A
  generalize hlen : A.length = len
  induction len using Nat.strong_induction_on generalizing A with
  | _ len ih =>
    intro p n h hpn hA
    rw [FindSeparator_eq] at h
    cases hc : firstCandidate va vt (A ++ 10 :: B) with
    | absent =>
      rw [hc] at h
      simp only [Except.ok.injEq, Prod.mk.injEq] at h
      omega
    | found s k =>
      rw [hc] at h
      simp only [Except.ok.injEq, Prod.mk.injEq, Nat.cast_inj] at h
      obtain ⟨hs, hk⟩ := h
      subst hs hk
      obtain ⟨pre, addr, ts, eol, post, hdata, hpre, hidx, hn, h32, hva, h10, hvt, heol⟩ :=
        firstCandidate_found hc
      have hsplit : A ++ [10] ++ B
          = (pre ++ separatorPrefix ++ addr ++ [32] ++ ts ++ eol) ++ post := by
        have : A ++ [10] ++ B = A ++ 10 :: B := by simp
        rw [this, hdata]; simp
      have hl : (A ++ [10]).length
          = (pre ++ separatorPrefix ++ addr ++ [32] ++ ts ++ eol).length := by
        simp [separatorPrefix]; omega
      obtain ⟨hA10, hB⟩ := List.append_inj hsplit hl
      rcases heol with ⟨he, hcr⟩ | he
      · rw [he] at hA10 hn
        have hAeq : A = pre ++ separatorPrefix ++ addr ++ [32] ++ ts := by
          have := List.append_inj_left' hA10 rfl
          exact this
        have hidx2 : indexOf? separatorPrefix
            (pre ++ separatorPrefix ++ (addr ++ 32 :: (ts ++ [13, 10] ++ B))) = some pre.length := by
          apply indexOf?_tail_irrelevant pre (addr ++ 32 :: (ts ++ eol ++ post))
          rw [← hdata, hidx, hpre]
        have hnew : A ++ 13 :: 10 :: B
            = pre ++ separatorPrefix ++ (addr ++ 32 :: (ts ++ [13, 10] ++ B)) := by
          rw [hAeq]; simp
        rw [hnew, FindSeparator_eq, firstCandidate_of_index va vt pre _ hidx2,
          parseTail_wellformed va vt addr ts [13, 10] B h32 hva h10 (Or.inr rfl)]
        simp only [hvt, if_true, Except.ok.injEq, Prod.mk.injEq, Nat.cast_inj]
        simp only [List.length_cons, List.length_nil] at hn ⊢
        omega
      · exfalso
        rw [he] at hA10
        apply hA (pre ++ separatorPrefix ++ addr ++ [32] ++ ts)
        have h2 : A ++ [10]
            = (pre ++ separatorPrefix ++ addr ++ [32] ++ ts ++ [13]) ++ [10] := by
          rw [hA10]; simp
        exact List.append_inj_left' h2 rfl
    | retry t =>
      rw [hc] at h
      obtain ⟨pre, addr, rest, hdata, hidx, ht, h32, hcase⟩ := firstCandidate_retry hc
      have hdrop : List.drop t (A ++ 10 :: B) = rest := by
        have : t = (pre ++ separatorPrefix ++ (addr ++ [32])).length := by
          simp [separatorPrefix]; omega
        rw [hdata, this]
        have e : pre ++ separatorPrefix ++ (addr ++ 32 :: rest)
            = (pre ++ separatorPrefix ++ (addr ++ [32])) ++ rest := by simp
        rw [e, List.drop_left]
      simp only at h
      rw [hdrop] at h
      obtain ⟨r, hr, hrcase⟩ := FindSeparator_sound va vt rest
      rw [hr] at h
      simp only [Except.map, Except.ok.injEq] at h
      rcases hrcase with h1 | ⟨q, m, hqm, hacc⟩
      · subst h1
        simp only [offsetResult, if_true, Prod.mk.injEq] at h
        omega
      · subst hqm
        have hq1 : ¬ ((q : Int) = -1) := by omega
        simp only [offsetResult, hq1, if_false, Prod.mk.injEq] at h
        obtain ⟨hp, hm⟩ := h
        have hp2 : p = t + q := by exact_mod_cast hp.symm
        have hm2 : m = n := by exact_mod_cast hm
        subst hm2
        have hb := hacc.bounds
        -- split A at offset t
        have htl : t ≤ A.length := by omega
        have hPfx : pre ++ separatorPrefix ++ (addr ++ [32]) ++ rest = A ++ 10 :: B := by
          rw [hdata]; simp
        have hPl : (pre ++ separatorPrefix ++ (addr ++ [32])).length = t := by
          simp [separatorPrefix]; omega
        rcases List.append_eq_append_iff.mp hPfx with ⟨C, hC1, hC2⟩ | ⟨C, hC1, hC2⟩
        · -- A = Pfx ++ C, rest = C ++ 10 :: B
          have hCl : C.length < len := by
            have := congrArg List.length hC1
            rw [List.length_append, hPl] at this
            omega
          have hCl2 : q + m = C.length + 1 := by
            have := congrArg List.length hC1
            rw [List.length_append, hPl] at this
            omega
          have hCA : ∀ A1, C ≠ A1 ++ [13] := by
            intro A1 hA1
            apply hA (pre ++ separatorPrefix ++ (addr ++ [32]) ++ A1)
            rw [hC1, hA1]; simp
          rw [hC2] at hr
          have hIH := ih C.length hCl C rfl q m hr hCl2 hCA
          have hpt := parseTail_retry_insert va vt addr rest h32 hcase C B hC2 hCA
          have hidx2 : indexOf? separatorPrefix
              (pre ++ separatorPrefix ++ (addr ++ 32 :: (C ++ 13 :: 10 :: B)))
                = some pre.length := by
            apply indexOf?_tail_irrelevant pre (addr ++ 32 :: rest)
            rw [← hdata, hidx]
          have hnew : A ++ 13 :: 10 :: B
              = pre ++ separatorPrefix ++ (addr ++ 32 :: (C ++ 13 :: 10 :: B)) := by
            rw [hC1]; simp
          have hdrop2 : List.drop t (pre ++ separatorPrefix ++ (addr ++ 32 :: (C ++ 13 :: 10 :: B)))
              = C ++ 13 :: 10 :: B := by
            have e : pre ++ separatorPrefix ++ (addr ++ 32 :: (C ++ 13 :: 10 :: B))
                = (pre ++ separatorPrefix ++ (addr ++ [32])) ++ (C ++ 13 :: 10 :: B) := by simp
            rw [e, ← hPl, List.drop_left]
          rw [hnew, FindSeparator_eq, firstCandidate_of_index va vt pre _ hidx2, hpt]
          simp only
          rw [← ht, hdrop2, hIH]
          simp only [Except.map, offsetResult, hq1, if_false, Except.ok.injEq, Prod.mk.injEq,
            and_true]
          omega
        · -- Pfx = A ++ C forces C = [], so that rest starts at the linefeed
          have hl2 : t = A.length + C.length := by
            rw [← hPl, hC1, List.length_append]
          have hC0 : C = [] := by
            apply List.eq_nil_of_length_eq_zero
            omega
          exfalso
          have := hb.1
          rw [hC0] at hl2
          simp only [List.length_nil] at hl2
          omega

/-- The last byte of an accepted line is a linefeed. -/
theorem AcceptedAt.last_lf {va vt : List Nat → Bool} {data : List Nat} {p n : Nat}
    (h : AcceptedAt va vt data p n) : data[p + (n - 1)]? = some 10 := by
  obtain ⟨addr, ts, eol, post, hd, hn, _, _, _, _, heol⟩ := h
  rw [← List.getElem?_drop, hd]
  rcases heol with ⟨he, _⟩ | he
  · have e : separatorPrefix ++ (addr ++ 32 :: (ts ++ eol ++ post))
        = (separatorPrefix ++ addr ++ [32] ++ ts) ++ 10 :: post := by
      rw [he]; simp
    have l : n - 1 = (separatorPrefix ++ addr ++ [32] ++ ts).length := by
      rw [hn, he]; simp [separatorPrefix]; omega
    rw [e, l, getElem?_append_length]
  · have e : separatorPrefix ++ (addr ++ 32 :: (ts ++ eol ++ post))
        = (separatorPrefix ++ addr ++ [32] ++ ts ++ [13]) ++ 10 :: post := by
      rw [he]; simp
    have l : n - 1 = (separatorPrefix ++ addr ++ [32] ++ ts ++ [13]).length := by
      rw [hn, he]; simp [separatorPrefix]; omega
    rw [e, l, getElem?_append_length]

/-- A span splits around any of its bytes. -/
theorem split_at_byte (data : List Nat) (k b : Nat) (h : data[k]? = some b) :
    data = data.take k ++ b :: data.drop (k + 1) := by
  have hk : k < data.length := by
    rcases Nat.lt_or_ge k data.length with h1 | h1
    · exact h1
    · rw [List.getElem?_eq_none h1] at h; cases h
  rw [List.getElem?_eq_getElem hk] at h
  simp only [Option.some.injEq] at h
  calc data = data.take k ++ data.drop k := (List.take_append_drop k data).symm
    _ = data.take k ++ b :: data.drop (k + 1) := by
      rw [List.drop_eq_getElem_cons hk, h]

/-! ## Claims about `FindSeparator` -/

/-- C1 fails on the code: in the span
`"Greetings From Texas\nFrom a@b Mon Apr 20 02:27:10 2015\n"` a valid
34-byte separator line starts at offset 21, at the beginning of the second
line, yet `FindSeparator` reports `(-1, 0)`. This holds for every pair of
validators that rejects the address `"Texas\nFrom"` and accepts the address
`"a@b"` and the timestamp `"Mon Apr 20 02:27:10 2015"`: the rejected candidate
at offset 10 ends in the word `From`, and the retry starts after the space that
follows it, behind the prefix of the real separator. -/
theorem C1_leftmost_separator_missed (va vt : List Nat → Bool)
    (hbad : va (bytesOf "Texas\nFrom") = false)
    (haddr : va (bytesOf "a@b") = true)
    (htime : vt (bytesOf "Mon Apr 20 02:27:10 2015") = true) :
    FindSeparator va vt
      (bytesOf "Greetings From Texas\nFrom a@b Mon Apr 20 02:27:10 2015\n") = .ok (-1, 0) ∧
    SeparatorAt va vt
      (bytesOf "Greetings From Texas\nFrom a@b Mon Apr 20 02:27:10 2015\n") 21 34 := by
  constructor
  · have hidx : indexOf? separatorPrefix
        (bytesOf "Greetings " ++ separatorPrefix
          ++ (bytesOf "Texas\nFrom" ++ 32 :: bytesOf "a@b Mon Apr 20 02:27:10 2015\n"))
        = some (bytesOf "Greetings ").length := by decide
    have hfc := firstCandidate_of_index va vt (bytesOf "Greetings ")
      (bytesOf "Texas\nFrom" ++ 32 :: bytesOf "a@b Mon Apr 20 02:27:10 2015\n") hidx
    rw [parseTail_bad_addr va vt (bytesOf "Texas\nFrom") _ (by decide) hbad] at hfc
    have hdata : bytesOf "Greetings From Texas\nFrom a@b Mon Apr 20 02:27:10 2015\n"
        = bytesOf "Greetings " ++ separatorPrefix
          ++ (bytesOf "Texas\nFrom" ++ 32 :: bytesOf "a@b Mon Apr 20 02:27:10 2015\n") := by
      decide
    have hdrop : List.drop ((bytesOf "Greetings ").length + 5 + ((bytesOf "Texas\nFrom").length + 1))
        (bytesOf "Greetings " ++ separatorPrefix
          ++ (bytesOf "Texas\nFrom" ++ 32 :: bytesOf "a@b Mon Apr 20 02:27:10 2015\n"))
        = bytesOf "a@b Mon Apr 20 02:27:10 2015\n" := by decide
    have hrest : firstCandidate va vt (bytesOf "a@b Mon Apr 20 02:27:10 2015\n") = .absent := by
      have hnone : indexOf? separatorPrefix (bytesOf "a@b Mon Apr 20 02:27:10 2015\n") = none := by
        decide
      simp only [firstCandidate, hnone]
    rw [hdata, FindSeparator_eq, hfc]
    simp only
    rw [hdrop, FindSeparator_eq, hrest]
    rfl
  · exact ⟨bytesOf "a@b", bytesOf "Mon Apr 20 02:27:10 2015", [10], [],
      by decide, by decide, by decide, haddr, by decide, htime, Or.inl rfl⟩

/-- C1 fails on the code, with the reference validators: the separator line at
offset 21 is valid and `FindSeparator` reports `(-1, 0)`. -/
theorem C1_leftmost_separator_missed_witness :
    FindSeparator addrSpecOk ctimeOk
      (bytesOf "Greetings From Texas\nFrom a@b Mon Apr 20 02:27:10 2015\n") = .ok (-1, 0) ∧
    SeparatorAt addrSpecOk ctimeOk
      (bytesOf "Greetings From Texas\nFrom a@b Mon Apr 20 02:27:10 2015\n") 21 34 :=
  C1_leftmost_separator_missed addrSpecOk ctimeOk (by decide) (by decide) (by decide)

/-- C2: `FindSeparator` always returns a pair `(idx, size)`. When `idx >= 0`,
`idx + size <= len(data)` and `data[idx : idx+size]` is exactly
`"From " ++ addr ++ " " ++ ts ++ eol`, where `addr` has no space and is accepted
by the address validator, `ts` has no linefeed and is accepted by the timestamp
validator, and `eol` is LF or CR LF, its width being part of `size`. When no
separator is found the pair is exactly `(-1, 0)`. -/
theorem C2_found_separator_is_sound (va vt : List Nat → Bool) (data : List Nat) :
    ∃ idx size : Int, FindSeparator va vt data = .ok (idx, size) ∧
      (0 ≤ idx →
        idx + size ≤ data.length ∧
        ∃ addr ts eol,
          slice data idx (idx + size) = .ok (separatorPrefix ++ addr ++ [32] ++ ts ++ eol) ∧
          size = ((separatorPrefix ++ addr ++ [32] ++ ts ++ eol).length : Int) ∧
          32 ∉ addr ∧ va addr = true ∧ 10 ∉ ts ∧ vt ts = true ∧
          (eol = [10] ∨ eol = [13, 10])) ∧
      (idx < 0 → (idx, size) = (-1, 0)) := by
  obtain ⟨r, hr, hcase⟩ := FindSeparator_sound va vt data
  rcases hcase with h | ⟨p, n, hpn, hacc⟩
  · subst h
    refine ⟨-1, 0, hr, ?_, fun _ => rfl⟩
    intro h0
    omega
  · subst hpn
    refine ⟨(p : Int), (n : Int), hr, ?_, ?_⟩
    · intro _
      have hb := hacc.bounds
      obtain ⟨addr, ts, eol, post, hd, hn, h32, hva, h10, hvt, heol⟩ := hacc.separatorAt
      refine ⟨by exact_mod_cast hb.2, addr, ts, eol, ?_, by rw [hn], h32, hva, h10, hvt, heol⟩
      have e1 : ((p : Int) + (n : Int)) = ((p + n : Nat) : Int) := by push_cast; rfl
      rw [e1, slice_ok data p (p + n) (by omega) hb.2, hd]
      have e2 : p + n - p = (separatorPrefix ++ addr ++ [32] ++ ts ++ eol).length := by
        rw [← hn]; omega
      rw [e2, List.take_left]
    · intro hneg
      omega

/-- C3: a well-formed separator line at the start of the span is recognised
with its exact length. For `data = "From " ++ addr ++ " " ++ ts ++ eol ++ rest`
with `addr` free of spaces and accepted, `ts` free of linefeeds, not ending in
a carriage return and accepted, `eol` LF or CR LF, and any `rest`,
`FindSeparator(data) = (0, len("From " ++ addr ++ " " ++ ts ++ eol))`. -/
theorem C3_wellformed_line_at_start (va vt : List Nat → Bool)
    (addr ts eol rest : List Nat)
    (h32 : 32 ∉ addr) (hva : va addr = true)
    (h10 : 10 ∉ ts) (hcr : ts.getLast? ≠ some 13) (hvt : vt ts = true)
    (heol : eol = [10] ∨ eol = [13, 10]) :
    FindSeparator va vt (separatorPrefix ++ addr ++ [32] ++ ts ++ eol ++ rest) =
      .ok (0, ((separatorPrefix ++ addr ++ [32] ++ ts ++ eol).length : Int)) := by
  have hacc : AcceptedAt va vt (separatorPrefix ++ addr ++ [32] ++ ts ++ eol ++ rest) 0
      (5 + (addr.length + 1 + ts.length + eol.length)) := by
    refine ⟨addr, ts, eol, rest, by simp, rfl, h32, hva, h10, hvt, ?_⟩
    rcases heol with h | h
    · left
      refine ⟨h, ?_⟩
      intro ts1 h1
      apply hcr
      rw [h1]
      simp
    · exact Or.inr h
  have := hacc.find_drop
  simp only [List.drop_zero] at this
  rw [this]
  simp [separatorPrefix]
  omega

/-- C3, on the test suite's "good; multiple" span: the 96-byte LF line followed
by body text and a second separator yields `(0, 96)`. -/
theorem C3_wellformed_line_at_start_witness :
    FindSeparator addrSpecOk ctimeOk
      (separatorPrefix
        ++ bytesOf "1498981366547862741-8cd918dd-8bbb-49f5-a4df-032f222154c9.mbox@xxx"
        ++ [32] ++ bytesOf "Mon Apr 20 02:27:10 2015" ++ [10]
        ++ bytesOf ("stuff...\nFrom 1498981366547862741-8cd918dd-8bbb-49f5-a4df-032f222154c9"
            ++ ".mbox@xxx Mon Apr 20 02:27:10 2015\n")) = .ok (0, 96) :=
  C3_wellformed_line_at_start addrSpecOk ctimeOk
    (bytesOf "1498981366547862741-8cd918dd-8bbb-49f5-a4df-032f222154c9.mbox@xxx")
    (bytesOf "Mon Apr 20 02:27:10 2015") [10] _
    (by decide) (by decide) (by decide) (by decide) (by decide) (Or.inl rfl)

/-- C4: CRLF length delta. If `FindSeparator(data) = (idx, size)` with
`idx >= 0` and the found separator ends in a bare LF (the byte before its
terminating linefeed is not a carriage return), then on the span obtained by
inserting a carriage return immediately before that linefeed
`FindSeparator` returns `(idx, size + 1)`. -/
theorem C4_crlf_length_delta (va vt : List Nat → Bool) (data : List Nat)
    (idx size : Int)
    (h : FindSeparator va vt data = .ok (idx, size)) (hidx : 0 ≤ idx)
    (hlf : data[(idx + size - 2).toNat]? ≠ some 13) :
    FindSeparator va vt (insertAt data (idx + size - 1).toNat 13) = .ok (idx, size + 1) := by
  obtain ⟨r, hr, hcase⟩ := FindSeparator_sound va vt data
  rw [hr] at h
  simp only [Except.ok.injEq] at h
  subst h
  rcases hcase with h1 | ⟨p, n, hpn, hacc⟩
  · simp only [Prod.mk.injEq] at h1
    omega
  · simp only [Prod.mk.injEq] at hpn
    obtain ⟨hp, hn⟩ := hpn
    subst hp hn
    have hb := hacc.bounds
    have hlast := hacc.last_lf
    have e1 : ((p : Int) + (n : Int) - 1).toNat = p + (n - 1) := by omega
    have e2 : ((p : Int) + (n : Int) - 2).toNat = p + (n - 1) - 1 := by omega
    rw [e2] at hlf
    rw [e1]
    have hsplit := split_at_byte data (p + (n - 1)) 10 hlast
    have hins : insertAt data (p + (n - 1)) 13
        = List.take (p + (n - 1)) data ++ 13 :: 10 :: List.drop (p + (n - 1) + 1) data := by
      unfold insertAt
      congr 2
      have hk : p + (n - 1) < data.length := by omega
      rw [List.drop_eq_getElem_cons hk]
      congr 1
      rw [List.getElem?_eq_getElem hk] at hlast
      simpa using hlast
    have hl : (List.take (p + (n - 1)) data).length = p + (n - 1) := by
      simp; omega
    have hA : ∀ A1, List.take (p + (n - 1)) data ≠ A1 ++ [13] := by
      intro A1 hA1
      apply hlf
      have hl1 : A1.length = p + (n - 1) - 1 := by
        have := congrArg List.length hA1
        rw [hl] at this
        simp at this
        omega
      have hd : data = A1 ++ 13 :: (10 :: List.drop (p + (n - 1) + 1) data) := by
        calc data = List.take (p + (n - 1)) data ++ 10 :: List.drop (p + (n - 1) + 1) data :=
              hsplit
          _ = A1 ++ 13 :: (10 :: List.drop (p + (n - 1) + 1) data) := by
              rw [hA1]; simp
      rw [hd, ← hl1, getElem?_append_length]
    rw [hsplit] at hr
    have := FindSeparator_insert_cr va vt _ _ p n hr (by rw [hl]; omega) hA
    rw [hins, this]
    simp

/-- C4, on the test suite's "good; extra front data" span: the LF version
gives `(31, 96)` and the span with a carriage return put before the final
linefeed gives `(31, 97)`. -/
theorem C4_crlf_length_delta_witness :
    FindSeparator addrSpecOk ctimeOk
      (insertAt (bytesOf ("From <garbage data...\nsup?\nblahFrom 1498981366547862741-8cd918dd"
        ++ "-8bbb-49f5-a4df-032f222154c9.mbox@xxx Mon Apr 20 02:27:10 2015\n"))
        (31 + 96 - 1 : Int).toNat 13) = .ok (31, 96 + 1) :=
  C4_crlf_length_delta addrSpecOk ctimeOk _ 31 96 (by decide) (by decide) (by decide)

/-! ## `ScanMessage` -/

/-- The control flow of `ScanMessage`, written as one expression. -/
theorem ScanMessage_eq (va vt : List Nat → Bool) (data : List Nat) (atEOF : Bool) :
    ScanMessage va vt data atEOF =
      if atEOF = true ∧ data.length = 0 then .ok (0, none, none)
      else
        match FindSeparator va vt data with
        | .error e => .error e
        | .ok (idx, size) =>
          if idx = -1 then
            .ok (0, none, if atEOF = true then some .ErrorUnexpectedEOF else none)
          else
            match sliceFrom data (idx + size) with
            | .error e => .error e
            | .ok rest =>
              match FindSeparator va vt rest with
              | .error e => .error e
              | .ok (newidx, _) =>
                if newidx ≠ -1 then
                  match slice data idx (idx + size + newidx) with
                  | .error e => .error e
                  | .ok token => .ok (idx + size + newidx, some token, none)
                else if atEOF = true then
                  match sliceFrom data idx with
                  | .error e => .error e
                  | .ok token => .ok ((data.length : Int), some token, none)
                else .ok (0, none, none) := by
  unfold ScanMessage
  cases atEOF with
  | true =>
    by_cases hl : data.length = 0
    · simp [hl, pure, Except.pure]
    · simp only [hl, and_false, if_false, if_true, bind, Except.bind, pure, Except.pure]
      cases h1 : FindSeparator va vt data with
      | error e => rfl
      | ok r =>
        obtain ⟨idx, size⟩ := r
        simp only
        by_cases hi : idx = -1
        · simp [hi]
        · simp only [hi, if_false]
          cases h2 : sliceFrom data (idx + size) with
          | error e => rfl
          | ok rest =>
            simp only
            cases h3 : FindSeparator va vt rest with
            | error e => rfl
            | ok r2 =>
              obtain ⟨newidx, sz⟩ := r2
              simp only
              by_cases hn : newidx = -1
              · simp [hn]
                cases sliceFrom data idx <;> rfl
              · simp [hn]
                cases slice data idx (idx + size + newidx) <;> rfl
  | false =>
    simp only [Bool.false_eq_true, false_and, if_false, bind, Except.bind, pure, Except.pure]
    cases h1 : FindSeparator va vt data with
    | error e => rfl
    | ok r =>
      obtain ⟨idx, size⟩ := r
      simp only
      by_cases hi : idx = -1
      · simp [hi]
      · simp only [hi, if_false]
        cases h2 : sliceFrom data (idx + size) with
        | error e => rfl
        | ok rest =>
          simp only
          cases h3 : FindSeparator va vt rest with
          | error e => rfl
          | ok r2 =>
            obtain ⟨newidx, sz⟩ := r2
            simp only
            by_cases hn : newidx = -1
            · simp [hn]
            · simp [hn]
              cases slice data idx (idx + size + newidx) <;> rfl

/-- Every run of `ScanMessage` is one of four: nothing left at end of input; no
separator in the span; a separator with none after it; a separator with a next
one after it. -/
theorem ScanMessage_cases (va vt : List Nat → Bool) (data : List Nat) (atEOF : Bool) :
    (atEOF = true ∧ data = [] ∧ ScanMessage va vt data atEOF = .ok (0, none, none)) ∨
    (¬ (atEOF = true ∧ data = []) ∧ FindSeparator va vt data = .ok (-1, 0) ∧
      ScanMessage va vt data atEOF =
        .ok (0, none, if atEOF = true then some .ErrorUnexpectedEOF else none)) ∨
    (∃ p n : Nat, FindSeparator va vt data = .ok ((p : Int), (n : Int)) ∧
      AcceptedAt va vt data p n ∧
      ((FindSeparator va vt (data.drop (p + n)) = .ok (-1, 0) ∧
          ScanMessage va vt data atEOF =
            if atEOF = true then .ok ((data.length : Int), some (data.drop p), none)
            else .ok (0, none, none)) ∨
       (∃ q m : Nat, FindSeparator va vt (data.drop (p + n)) = .ok ((q : Int), (m : Int)) ∧
          AcceptedAt va vt (data.drop (p + n)) q m ∧
          ScanMessage va vt data atEOF =
            .ok (((p + n + q : Nat) : Int), some ((data.drop p).take (n + q)), none)))) := by
  by_cases h0 : atEOF = true ∧ data = []
  · left
    refine ⟨h0.1, h0.2, ?_⟩
    rw [ScanMessage_eq]
    simp [h0.1, h0.2]
  · right
    have h0b : ¬ (atEOF = true ∧ data.length = 0) := by
      intro h
      exact h0 ⟨h.1, List.eq_nil_of_length_eq_zero h.2⟩
    obtain ⟨r, hr, hcase⟩ := FindSeparator_sound va vt data
    rcases hcase with h1 | ⟨p, n, hpn, hacc⟩
    · left
      subst h1
      refine ⟨h0, hr, ?_⟩
      rw [ScanMessage_eq]
      simp only [h0b, if_false, hr, if_true]
    · right
      subst hpn
      refine ⟨p, n, hr, hacc, ?_⟩
      have hb := hacc.bounds
      have hp1 : ¬ ((p : Int) = -1) := by omega
      have e1 : ((p : Int) + (n : Int)) = ((p + n : Nat) : Int) := by push_cast; rfl
      have hsm : ScanMessage va vt data atEOF =
          match FindSeparator va vt (data.drop (p + n)) with
          | .error e => .error e
          | .ok (newidx, _) =>
            if newidx ≠ -1 then
              match slice data p ((p + n : Nat) + newidx) with
              | .error e => .error e
              | .ok token => .ok (((p + n : Nat) : Int) + newidx, some token, none)
            else if atEOF = true then
              .ok ((data.length : Int), some (data.drop p), none)
            else .ok (0, none, none) := by
        rw [ScanMessage_eq]
        simp only [h0b, if_false, hr, hp1, e1, sliceFrom_ok data (p + n) hb.2,
          sliceFrom_ok data p (by omega)]
      obtain ⟨r2, hr2, hcase2⟩ := FindSeparator_sound va vt (data.drop (p + n))
      rcases hcase2 with h2 | ⟨q, m, hqm, hacc2⟩
      · left
        subst h2
        refine ⟨hr2, ?_⟩
        rw [hsm, hr2]
        simp
      · right
        subst hqm
        refine ⟨q, m, hr2, hacc2, ?_⟩
        have hb2 := hacc2.bounds
        simp only [List.length_drop] at hb2
        have hq1 : ((q : Int) ≠ -1) := by omega
        have e2 : (((p + n : Nat) : Int) + (q : Int)) = ((p + n + q : Nat) : Int) := by
          push_cast; rfl
        rw [hsm, hr2]
        simp only [hq1, ne_eq, not_false_eq_true, if_true, e2]
        rw [slice_ok data p (p + n + q) (by omega) (by omega)]
        have e3 : p + n + q - p = n + q := by omega
        rw [e3]

theorem FindSeparator_nil (va vt : List Nat → Bool) :
    FindSeparator va vt [] = .ok (-1, 0) := by
  rw [FindSeparator_eq]
  simp [firstCandidate, indexOf?, separatorPrefix]

/-- A found index is a natural number at which the code accepted a line. -/
theorem FindSeparator_found {va vt : List Nat → Bool} {data : List Nat} {idx size : Int}
    (h : FindSeparator va vt data = .ok (idx, size)) (h0 : 0 ≤ idx) :
    ∃ p n : Nat, idx = (p : Int) ∧ size = (n : Int) ∧ AcceptedAt va vt data p n := by
  obtain ⟨r, hr, hcase⟩ := FindSeparator_sound va vt data
  rw [hr] at h
  simp only [Except.ok.injEq] at h
  subst h
  rcases hcase with h1 | ⟨p, n, hpn, hacc⟩
  · simp only [Prod.mk.injEq] at h1
    omega
  · simp only [Prod.mk.injEq] at hpn
    exact ⟨p, n, hpn.1, hpn.2, hacc⟩

/-- A negative index comes only as the pair `(-1, 0)`. -/
theorem FindSeparator_notFound {va vt : List Nat → Bool} {data : List Nat} {idx size : Int}
    (h : FindSeparator va vt data = .ok (idx, size)) (h0 : idx < 0) :
    FindSeparator va vt data = .ok (-1, 0) := by
  obtain ⟨r, hr, hcase⟩ := FindSeparator_sound va vt data
  rw [hr] at h
  simp only [Except.ok.injEq] at h
  subst h
  rcases hcase with h1 | ⟨p, n, hpn, _⟩
  · rw [hr, h1]
  · simp only [Prod.mk.injEq] at hpn
    omega

theorem sliceFrom_eq_drop {data rest : List Nat} {k : Nat} (hk : k ≤ data.length)
    (h : sliceFrom data (k : Int) = .ok rest) : rest = data.drop k := by
  rw [sliceFrom_ok data k hk] at h
  simp only [Except.ok.injEq] at h
  exact h.symm

/-- A separator with a next separator after it: the run of `ScanMessage` in
natural-number offsets. -/
theorem ScanMessage_found_next {va vt : List Nat → Bool} {data : List Nat}
    (atEOF : Bool) {idx size n sz : Int} {rest : List Nat}
    (h1 : FindSeparator va vt data = .ok (idx, size)) (h0 : 0 ≤ idx)
    (hrest : sliceFrom data (idx + size) = .ok rest)
    (h2 : FindSeparator va vt rest = .ok (n, sz)) (hn : 0 ≤ n) :
    ∃ p k q m : Nat, idx = (p : Int) ∧ size = (k : Int) ∧ n = (q : Int) ∧ sz = (m : Int) ∧
      rest = data.drop (p + k) ∧
      AcceptedAt va vt data p k ∧ AcceptedAt va vt (data.drop (p + k)) q m ∧
      ScanMessage va vt data atEOF =
        .ok (((p + k + q : Nat) : Int), some ((data.drop p).take (k + q)), none) := by
  obtain ⟨p, k, hp, hk, hacc⟩ := FindSeparator_found h1 h0
  subst hp hk
  have hb := hacc.bounds
  have e1 : ((p : Int) + (k : Int)) = ((p + k : Nat) : Int) := by push_cast; rfl
  rw [e1] at hrest
  have hr := sliceFrom_eq_drop hb.2 hrest
  subst hr
  obtain ⟨q, m, hq, hm, hacc2⟩ := FindSeparator_found h2 hn
  subst hq hm
  refine ⟨p, k, q, m, rfl, rfl, rfl, rfl, rfl, hacc, hacc2, ?_⟩
  rcases ScanMessage_cases va vt data atEOF with ⟨_, hd, _⟩ | ⟨_, hf, _⟩ | ⟨p2, k2, hf, _, hc⟩
  · rw [hd, FindSeparator_nil] at h1
    simp only [Except.ok.injEq, Prod.mk.injEq] at h1
    omega
  · rw [hf] at h1
    simp only [Except.ok.injEq, Prod.mk.injEq] at h1
    omega
  · rw [hf] at h1
    simp only [Except.ok.injEq, Prod.mk.injEq, Nat.cast_inj] at h1
    obtain ⟨hp, hk⟩ := h1
    subst hp hk
    rcases hc with ⟨hf2, _⟩ | ⟨q2, m2, hf2, _, hsm⟩
    · rw [hf2] at h2
      simp only [Except.ok.injEq, Prod.mk.injEq] at h2
      omega
    · rw [hf2] at h2
      simp only [Except.ok.injEq, Prod.mk.injEq, Nat.cast_inj] at h2
      obtain ⟨hq, hm⟩ := h2
      subst hq hm
      rw [hsm]

/-- A separator with no separator after it: the run of `ScanMessage`. -/
theorem ScanMessage_found_last {va vt : List Nat → Bool} {data : List Nat}
    (atEOF : Bool) {idx size n sz : Int} {rest : List Nat}
    (h1 : FindSeparator va vt data = .ok (idx, size)) (h0 : 0 ≤ idx)
    (hrest : sliceFrom data (idx + size) = .ok rest)
    (h2 : FindSeparator va vt rest = .ok (n, sz)) (hn : n < 0) :
    ∃ p k : Nat, idx = (p : Int) ∧ size = (k : Int) ∧ AcceptedAt va vt data p k ∧
      ScanMessage va vt data atEOF =
        if atEOF = true then .ok ((data.length : Int), some (data.drop p), none)
        else .ok (0, none, none) := by
  obtain ⟨p, k, hp, hk, hacc⟩ := FindSeparator_found h1 h0
  subst hp hk
  have hb := hacc.bounds
  have e1 : ((p : Int) + (k : Int)) = ((p + k : Nat) : Int) := by push_cast; rfl
  rw [e1] at hrest
  have hr := sliceFrom_eq_drop hb.2 hrest
  subst hr
  refine ⟨p, k, rfl, rfl, hacc, ?_⟩
  rcases ScanMessage_cases va vt data atEOF with ⟨_, hd, _⟩ | ⟨_, hf, _⟩ | ⟨p2, k2, hf, _, hc⟩
  · rw [hd, FindSeparator_nil] at h1
    simp only [Except.ok.injEq, Prod.mk.injEq] at h1
    omega
  · rw [hf] at h1
    simp only [Except.ok.injEq, Prod.mk.injEq] at h1
    omega
  · rw [hf] at h1
    simp only [Except.ok.injEq, Prod.mk.injEq, Nat.cast_inj] at h1
    obtain ⟨hp, hk⟩ := h1
    subst hp hk
    rcases hc with ⟨_, hsm⟩ | ⟨q2, m2, hf2, _, _⟩
    · exact hsm
    · rw [hf2] at h2
      simp only [Except.ok.injEq, Prod.mk.injEq] at h2
      omega

/-- A span cut no shorter than five bytes inside an accepted line still starts
with the prefix. -/
theorem AcceptedAt.prefix_take {va vt : List Nat → Bool} {data : List Nat} {p n : Nat}
    (h : AcceptedAt va vt data p n) (j : Nat) (hj : 5 ≤ j) :
    separatorPrefix <+: (data.drop p).take j := by
  obtain ⟨addr, ts, eol, post, hd, _⟩ := h
  rw [hd, List.take_append_eq_append_take]
  have h5 : separatorPrefix.length = 5 := rfl
  have : List.take j separatorPrefix = separatorPrefix := by
    apply List.take_of_length_le
    omega
  rw [this]
  exact List.prefix_append _ _

/-! ## Claims about `ScanMessage` -/

/-- C5: token between two separators. If `FindSeparator(data) = (idx, size)`
with `idx >= 0` and `FindSeparator(data[idx+size:]) = (n, _)` with `n >= 0`,
then for either value of `atEOF`, `ScanMessage(data, atEOF)` returns
`advance = idx + size + n`, `token = data[idx : idx+size+n]` and a nil error. -/
theorem C5_token_between_separators (va vt : List Nat → Bool) (data : List Nat)
    (atEOF : Bool) (idx size n sz : Int) (rest : List Nat)
    (h1 : FindSeparator va vt data = .ok (idx, size)) (h0 : 0 ≤ idx)
    (hrest : sliceFrom data (idx + size) = .ok rest)
    (h2 : FindSeparator va vt rest = .ok (n, sz)) (hn : 0 ≤ n) :
    ∃ token, slice data idx (idx + size + n) = .ok token ∧
      ScanMessage va vt data atEOF = .ok (idx + size + n, some token, none) := by
  obtain ⟨p, k, q, m, hp, hk, hq, hm, _, hacc, hacc2, hsm⟩ :=
    ScanMessage_found_next atEOF h1 h0 hrest h2 hn
  subst hp hk hq hm
  have hb := hacc.bounds
  have hb2 := hacc2.bounds
  simp only [List.length_drop] at hb2
  have e2 : ((p : Int) + (k : Int) + (q : Int)) = ((p + k + q : Nat) : Int) := by
    push_cast; rfl
  refine ⟨(data.drop p).take (k + q), ?_, ?_⟩
  · rw [e2, slice_ok data p (p + k + q) (by omega) (by omega)]
    have e3 : p + k + q - p = k + q := by omega
    rw [e3]
  · rw [hsm, e2]

/-- C5, on two messages behind two bytes of garbage: with `atEOF` false the
first message is returned, `advance = 2 + 34 + 4`. -/
theorem C5_token_between_separators_witness :
    ∃ token,
      slice (bytesOf ("xxFrom a@b Mon Apr 20 02:27:10 2015\nbody"
        ++ "From c@d Tue Apr 21 16:00:59 2015\n")) 2 (2 + 34 + 4) = .ok token ∧
      ScanMessage addrSpecOk ctimeOk
        (bytesOf ("xxFrom a@b Mon Apr 20 02:27:10 2015\nbody"
          ++ "From c@d Tue Apr 21 16:00:59 2015\n")) false
        = .ok (2 + 34 + 4, some token, none) :=
  C5_token_between_separators addrSpecOk ctimeOk _ false 2 34 4 34
    (bytesOf "bodyFrom c@d Tue Apr 21 16:00:59 2015\n")
    (by decide) (by decide) (by decide) (by decide) (by decide)

/-- C6: final message at end of stream. For non-empty `data`, if
`FindSeparator(data) = (idx, size)` with `idx >= 0` and
`FindSeparator(data[idx+size:])` reports not-found, then
`ScanMessage(data, true)` returns `advance = len(data)`, `token = data[idx:]`
and a nil error. -/
theorem C6_final_message_at_eof (va vt : List Nat → Bool) (data : List Nat)
    (idx size n sz : Int) (rest : List Nat) (_hne : data ≠ [])
    (h1 : FindSeparator va vt data = .ok (idx, size)) (h0 : 0 ≤ idx)
    (hrest : sliceFrom data (idx + size) = .ok rest)
    (h2 : FindSeparator va vt rest = .ok (n, sz)) (hn : n < 0) :
    ∃ token, sliceFrom data idx = .ok token ∧
      ScanMessage va vt data true = .ok ((data.length : Int), some token, none) := by
  obtain ⟨p, k, hp, hk, hacc, hsm⟩ := ScanMessage_found_last true h1 h0 hrest h2 hn
  subst hp hk
  have hb := hacc.bounds
  refine ⟨data.drop p, sliceFrom_ok data p (by omega), ?_⟩
  rw [hsm]
  simp

/-- C6, on one message behind two bytes of garbage: at end of input the
message runs to the end of the span. -/
theorem C6_final_message_at_eof_witness :
    ∃ token,
      sliceFrom (bytesOf "xxFrom a@b Mon Apr 20 02:27:10 2015\nbody\n") 2 = .ok token ∧
      ScanMessage addrSpecOk ctimeOk
        (bytesOf "xxFrom a@b Mon Apr 20 02:27:10 2015\nbody\n") true
        = .ok (((bytesOf "xxFrom a@b Mon Apr 20 02:27:10 2015\nbody\n").length : Int),
            some token, none) :=
  C6_final_message_at_eof addrSpecOk ctimeOk _ 2 34 (-1) 0 (bytesOf "body\n")
    (by decide) (by decide) (by decide) (by decide) (by decide) (by decide)

/-- C7: `ScanMessage` always returns a triple `(advance, token, err)`; `err`
is non-nil exactly when `atEOF` is true, `data` is non-empty and
`FindSeparator(data)` reports not-found, and it is then `ErrorUnexpectedEOF`
with `advance = 0` and a nil token. In particular there is no error when
`atEOF` is false, and `ScanMessage(empty, true) = (0, nil, nil)`. -/
theorem C7_error_iff (va vt : List Nat → Bool) (data : List Nat) (atEOF : Bool) :
    (∃ adv tok err, ScanMessage va vt data atEOF = .ok (adv, tok, err) ∧
      (err ≠ none ↔
        (atEOF = true ∧ data ≠ [] ∧
          ∃ idx size, FindSeparator va vt data = .ok (idx, size) ∧ idx < 0)) ∧
      (err ≠ none → err = some .ErrorUnexpectedEOF ∧ adv = 0 ∧ tok = none) ∧
      (atEOF = false → err = none)) ∧
    ScanMessage va vt [] true = .ok (0, none, none) := by
  constructor
  · rcases ScanMessage_cases va vt data atEOF with
      ⟨ha, hd, hsm⟩ | ⟨hnot, hf, hsm⟩ | ⟨p, k, hf, hacc, hc⟩
    · refine ⟨0, none, none, hsm, ?_, ?_, ?_⟩
      · constructor
        · intro h; exact absurd rfl h
        · intro h; exact absurd hd h.2.1
      · intro h; exact absurd rfl h
      · intro _; rfl
    · cases atEOF with
      | true =>
        have hd : data ≠ [] := fun h => hnot ⟨rfl, h⟩
        refine ⟨0, none, some .ErrorUnexpectedEOF, by simpa using hsm, ?_, ?_, ?_⟩
        · constructor
          · intro _
            exact ⟨rfl, hd, -1, 0, hf, by omega⟩
          · intro _
            simp
        · intro _; exact ⟨rfl, rfl, rfl⟩
        · intro h; cases h
      | false =>
        refine ⟨0, none, none, by simpa using hsm, ?_, ?_, ?_⟩
        · constructor
          · intro h; exact absurd rfl h
          · intro h; cases h.1
        · intro h; exact absurd rfl h
        · intro _; rfl
    · have hnf : ¬ ∃ idx size, FindSeparator va vt data = .ok (idx, size) ∧ idx < 0 := by
        rintro ⟨idx, size, h, hlt⟩
        rw [hf] at h
        simp only [Except.ok.injEq, Prod.mk.injEq] at h
        omega
      rcases hc with ⟨_, hsm⟩ | ⟨q, m, _, _, hsm⟩
      · cases atEOF with
        | true =>
          refine ⟨_, _, none, by simpa using hsm, ?_, ?_, ?_⟩
          · constructor
            · intro h; exact absurd rfl h
            · intro h; exact absurd h.2.2 hnf
          · intro h; exact absurd rfl h
          · intro _; rfl
        | false =>
          refine ⟨_, _, none, by simpa using hsm, ?_, ?_, ?_⟩
          · constructor
            · intro h; exact absurd rfl h
            · intro h; cases h.1
          · intro h; exact absurd rfl h
          · intro _; rfl
      · refine ⟨_, _, none, hsm, ?_, ?_, ?_⟩
        · constructor
          · intro h; exact absurd rfl h
          · intro h; exact absurd h.2.2 hnf
        · intro h; exact absurd rfl h
        · intro _; rfl
  · rcases ScanMessage_cases va vt [] true with ⟨_, _, hsm⟩ | ⟨hnot, _, _⟩ | ⟨p, k, _, hacc, _⟩
    · exact hsm
    · exact absurd ⟨rfl, rfl⟩ hnot
    · have := hacc.bounds
      simp at this
      omega

/-- C8: need more data. `ScanMessage(data, false)` returns `(0, nil, nil)`
whenever `FindSeparator(data)` reports not-found, and also whenever
`FindSeparator(data) = (idx, size)` is found but
`FindSeparator(data[idx+size:])` reports not-found; so with `atEOF` false a
token is returned only when the message's own separator and the next separator
both lie inside `data`. -/
theorem C8_need_more_data (va vt : List Nat → Bool) (data : List Nat) :
    (∀ idx size : Int, FindSeparator va vt data = .ok (idx, size) → idx < 0 →
      ScanMessage va vt data false = .ok (0, none, none)) ∧
    (∀ (idx size n sz : Int) (rest : List Nat),
      FindSeparator va vt data = .ok (idx, size) → 0 ≤ idx →
      sliceFrom data (idx + size) = .ok rest →
      FindSeparator va vt rest = .ok (n, sz) → n < 0 →
      ScanMessage va vt data false = .ok (0, none, none)) ∧
    (∀ (adv : Int) (tok : List Nat) (err : Option ScanError),
      ScanMessage va vt data false = .ok (adv, some tok, err) →
      ∃ (idx size n sz : Int) (rest : List Nat),
        FindSeparator va vt data = .ok (idx, size) ∧ 0 ≤ idx ∧
        sliceFrom data (idx + size) = .ok rest ∧
        FindSeparator va vt rest = .ok (n, sz) ∧ 0 ≤ n ∧
        idx + size + n + sz ≤ data.length) := by
  refine ⟨?_, ?_, ?_⟩
  · intro idx size h hlt
    rcases ScanMessage_cases va vt data false with
      ⟨ha, _, _⟩ | ⟨_, _, hsm⟩ | ⟨p, k, hf, _, _⟩
    · cases ha
    · simpa using hsm
    · rw [hf] at h
      simp only [Except.ok.injEq, Prod.mk.injEq] at h
      omega
  · intro idx size n sz rest h1 h0 hrest h2 hn
    obtain ⟨p, k, _, _, _, hsm⟩ := ScanMessage_found_last false h1 h0 hrest h2 hn
    simpa using hsm
  · intro adv tok err h
    rcases ScanMessage_cases va vt data false with
      ⟨ha, _, _⟩ | ⟨_, _, hsm⟩ | ⟨p, k, hf, hacc, hc⟩
    · cases ha
    · rw [hsm] at h
      simp at h
    · rcases hc with ⟨_, hsm⟩ | ⟨q, m, hf2, hacc2, _⟩
      · rw [hsm] at h
        simp at h
      · have hb := hacc.bounds
        have hb2 := hacc2.bounds
        simp only [List.length_drop] at hb2
        have e1 : ((p : Int) + (k : Int)) = ((p + k : Nat) : Int) := by push_cast; rfl
        refine ⟨p, k, q, m, data.drop (p + k), hf, by omega, ?_, hf2, by omega, by omega⟩
        rw [e1, sliceFrom_ok data (p + k) hb.2]

/-- C9: garbage dropping. Whenever `ScanMessage(data, atEOF)` returns a token,
the token equals `data[idx : advance]` where `idx` is the index reported by
`FindSeparator(data)`; the token begins with `"From "` and is non-empty, the
consumed bytes `data[0 : advance]` are the leading bytes `data[0 : idx]`
followed by the token, and `0 < advance = idx + len(token) <= len(data)`. -/
theorem C9_garbage_dropping (va vt : List Nat → Bool) (data : List Nat) (atEOF : Bool)
    (adv : Int) (tok : List Nat) (err : Option ScanError)
    (h : ScanMessage va vt data atEOF = .ok (adv, some tok, err)) :
    ∃ idx size : Int, FindSeparator va vt data = .ok (idx, size) ∧ 0 ≤ idx ∧
      slice data idx adv = .ok tok ∧
      separatorPrefix <+: tok ∧ tok ≠ [] ∧
      data.take adv.toNat = data.take idx.toNat ++ tok ∧
      0 < adv ∧ adv = idx + (tok.length : Int) ∧ adv ≤ (data.length : Int) := by
  have key : ∀ (p k j : Nat), AcceptedAt va vt data p k → 5 ≤ j → p + j ≤ data.length →
      FindSeparator va vt data = .ok ((p : Int), (k : Int)) →
      adv = ((p + j : Nat) : Int) → tok = (data.drop p).take j →
      ∃ idx size : Int, FindSeparator va vt data = .ok (idx, size) ∧ 0 ≤ idx ∧
        slice data idx adv = .ok tok ∧
        separatorPrefix <+: tok ∧ tok ≠ [] ∧
        data.take adv.toNat = data.take idx.toNat ++ tok ∧
        0 < adv ∧ adv = idx + (tok.length : Int) ∧ adv ≤ (data.length : Int) := by
    intro p k j hacc hj hle hf hadv htok
    have hpre := hacc.prefix_take j hj
    have hl : tok.length = j := by
      rw [htok]; simp; omega
    have hne : tok ≠ [] := by
      intro h0
      rw [h0] at hl
      simp at hl
      omega
    refine ⟨p, k, hf, by omega, ?_, by rw [htok]; exact hpre, hne, ?_, by omega, ?_, ?_⟩
    · rw [hadv, slice_ok data p (p + j) (by omega) hle, htok]
      have e : p + j - p = j := by omega
      rw [e]
    · rw [hadv, htok]
      simp only [Int.toNat_ofNat]
      rw [List.take_add]
    · rw [hadv, hl]; push_cast; rfl
    · rw [hadv]; exact_mod_cast hle
  rcases ScanMessage_cases va vt data atEOF with
    ⟨_, _, hsm⟩ | ⟨_, _, hsm⟩ | ⟨p, k, hf, hacc, hc⟩
  · rw [hsm] at h
    simp at h
  · rw [hsm] at h
    simp at h
  · have hb := hacc.bounds
    rcases hc with ⟨_, hsm⟩ | ⟨q, m, _, hacc2, hsm⟩
    · cases atEOF with
      | false =>
        rw [hsm] at h
        simp at h
      | true =>
        rw [hsm] at h
        simp only [if_true, Except.ok.injEq, Prod.mk.injEq, Option.some.injEq] at h
        obtain ⟨hadv, htok, _⟩ := h
        apply key p k (data.length - p) hacc (by omega) (by omega) hf
        · rw [← hadv]
          congr 1
          omega
        · rw [← htok]
          rw [List.take_of_length_le]
          simp
    · have hb2 := hacc2.bounds
      simp only [List.length_drop] at hb2
      rw [hsm] at h
      simp only [Except.ok.injEq, Prod.mk.injEq, Option.some.injEq] at h
      obtain ⟨hadv, htok, _⟩ := h
      apply key p k (k + q) hacc (by omega) (by omega) hf
      · rw [← hadv]
        congr 1
        omega
      · exact htok.symm

/-- C9, on one message behind ten bytes of garbage: the token starts at the
separator, offset 10, and the garbage is consumed with it. -/
theorem C9_garbage_dropping_witness :
    ∃ idx size : Int,
      FindSeparator addrSpecOk ctimeOk
        (bytesOf "garbage...From a@b Mon Apr 20 02:27:10 2015\nbody\n") = .ok (idx, size) ∧
      0 ≤ idx ∧
      slice (bytesOf "garbage...From a@b Mon Apr 20 02:27:10 2015\nbody\n") idx 49
        = .ok (bytesOf "From a@b Mon Apr 20 02:27:10 2015\nbody\n") ∧
      separatorPrefix <+: bytesOf "From a@b Mon Apr 20 02:27:10 2015\nbody\n" ∧
      bytesOf "From a@b Mon Apr 20 02:27:10 2015\nbody\n" ≠ [] ∧
      (bytesOf "garbage...From a@b Mon Apr 20 02:27:10 2015\nbody\n").take (49 : Int).toNat
        = (bytesOf "garbage...From a@b Mon Apr 20 02:27:10 2015\nbody\n").take idx.toNat
          ++ bytesOf "From a@b Mon Apr 20 02:27:10 2015\nbody\n" ∧
      0 < (49 : Int) ∧
      (49 : Int) = idx + ((bytesOf "From a@b Mon Apr 20 02:27:10 2015\nbody\n").length : Int) ∧
      (49 : Int)
        ≤ ((bytesOf "garbage...From a@b Mon Apr 20 02:27:10 2015\nbody\n").length : Int) :=
  C9_garbage_dropping addrSpecOk ctimeOk
    (bytesOf "garbage...From a@b Mon Apr 20 02:27:10 2015\nbody\n") true 49
    (bytesOf "From a@b Mon Apr 20 02:27:10 2015\nbody\n") none (by decide)

/-- C10: consecutive tokens are contiguous. If `FindSeparator(data) =
(idx, size)` is found and a next separator is found at offset `n` of
`data[idx+size:]` with length `sz`, then `ScanMessage(data, atEOF)` returns
the token `data[idx : a]` with `a = idx + size + n`, `FindSeparator(data[a:])`
reports index 0 with the same length `sz`, and `ScanMessage(data[a:], true)`
returns without error a non-empty token that starts at the first byte of
`data[a:]`. -/
theorem C10_consecutive_tokens_contiguous (va vt : List Nat → Bool) (data : List Nat)
    (atEOF : Bool) (idx size n sz : Int) (rest : List Nat)
    (h1 : FindSeparator va vt data = .ok (idx, size)) (h0 : 0 ≤ idx)
    (hrest : sliceFrom data (idx + size) = .ok rest)
    (h2 : FindSeparator va vt rest = .ok (n, sz)) (hn : 0 ≤ n) :
    ∃ token next : List Nat,
      slice data idx (idx + size + n) = .ok token ∧
      ScanMessage va vt data atEOF = .ok (idx + size + n, some token, none) ∧
      sliceFrom data (idx + size + n) = .ok next ∧
      FindSeparator va vt next = .ok (0, sz) ∧
      ∃ (adv2 : Int) (token2 : List Nat),
        ScanMessage va vt next true = .ok (adv2, some token2, none) ∧
        slice next 0 adv2 = .ok token2 ∧ token2 ≠ [] := by
  obtain ⟨p, k, q, m, hp, hk, hq, hm, _, hacc, hacc2, hsm⟩ :=
    ScanMessage_found_next atEOF h1 h0 hrest h2 hn
  subst hp hk hq hm
  have hb := hacc.bounds
  have hb2 := hacc2.bounds
  simp only [List.length_drop] at hb2
  have e2 : ((p : Int) + (k : Int) + (q : Int)) = ((p + k + q : Nat) : Int) := by
    push_cast; rfl
  have hfs : FindSeparator va vt (data.drop (p + k + q)) = .ok (0, (m : Int)) := by
    have := hacc2.find_drop
    rw [List.drop_drop] at this
    exact this
  have hacc3 : AcceptedAt va vt (data.drop (p + k + q)) 0 m := by
    obtain ⟨addr, ts, eol, post, hd, hrest2⟩ := hacc2
    refine ⟨addr, ts, eol, post, ?_, hrest2⟩
    rw [List.drop_drop] at hd
    simpa using hd
  refine ⟨(data.drop p).take (k + q), data.drop (p + k + q), ?_, ?_, ?_, hfs, ?_⟩
  · rw [e2, slice_ok data p (p + k + q) (by omega) (by omega)]
    have e3 : p + k + q - p = k + q := by omega
    rw [e3]
  · rw [hsm, e2]
  · rw [e2, sliceFrom_ok data (p + k + q) (by omega)]
  · have hb3 := hacc3.bounds
    rcases ScanMessage_cases va vt (data.drop (p + k + q)) true with
      ⟨_, hd, _⟩ | ⟨_, hf, _⟩ | ⟨p2, k2, hf, hacc4, hc⟩
    · rw [hd] at hb3
      simp at hb3
      omega
    · rw [hf] at hfs
      simp only [Except.ok.injEq, Prod.mk.injEq] at hfs
      omega
    · rw [hf] at hfs
      simp only [Except.ok.injEq, Prod.mk.injEq] at hfs
      have hp2 : p2 = 0 := by exact_mod_cast hfs.1
      subst hp2
      have hb4 := hacc4.bounds
      rcases hc with ⟨_, hsm2⟩ | ⟨q2, m2, _, hacc5, hsm2⟩
      · refine ⟨_, _, by simpa using hsm2, ?_, ?_⟩
        · have := slice_ok (data.drop (p + k + q)) 0 (data.drop (p + k + q)).length
            (by omega) (by omega)
          have ht : List.take (data.length - (p + k + q)) (List.drop (p + k + q) data)
              = List.drop (p + k + q) data := List.take_of_length_le (by simp)
          simpa [ht] using this
        · intro h
          rw [h] at hb4
          simp at hb4
          omega
      · have hb5 := hacc5.bounds
        simp only [List.length_drop] at hb5
        refine ⟨_, _, hsm2, ?_, ?_⟩
        · have := slice_ok (data.drop (p + k + q)) 0 (0 + k2 + q2) (by omega)
            (by simp only [List.length_drop]; omega)
          simpa using this
        · intro h
          have hl := congrArg List.length h
          simp at hl
          omega

/-- C10, on three messages: the first token ends at offset 41, where the
second separator is found at index 0 of the remainder. -/
theorem C10_consecutive_tokens_contiguous_witness :
    ∃ token next : List Nat,
      slice (bytesOf ("From a@b Mon Apr 20 02:27:10 2015\nfirst\n\n"
        ++ "From c@d Tue Apr 21 16:00:59 2015\nsecond\n\n"
        ++ "From e@f Wed Apr 22 00:00:00 2015\nthird\n")) 0 (0 + 34 + 7) = .ok token ∧
      ScanMessage addrSpecOk ctimeOk
        (bytesOf ("From a@b Mon Apr 20 02:27:10 2015\nfirst\n\n"
          ++ "From c@d Tue Apr 21 16:00:59 2015\nsecond\n\n"
          ++ "From e@f Wed Apr 22 00:00:00 2015\nthird\n")) false
        = .ok (0 + 34 + 7, some token, none) ∧
      sliceFrom (bytesOf ("From a@b Mon Apr 20 02:27:10 2015\nfirst\n\n"
        ++ "From c@d Tue Apr 21 16:00:59 2015\nsecond\n\n"
        ++ "From e@f Wed Apr 22 00:00:00 2015\nthird\n")) (0 + 34 + 7) = .ok next ∧
      FindSeparator addrSpecOk ctimeOk next = .ok (0, 34) ∧
      ∃ (adv2 : Int) (token2 : List Nat),
        ScanMessage addrSpecOk ctimeOk next true = .ok (adv2, some token2, none) ∧
        slice next 0 adv2 = .ok token2 ∧ token2 ≠ [] :=
  C10_consecutive_tokens_contiguous addrSpecOk ctimeOk _ false 0 34 7 34
    (bytesOf ("first\n\n" ++ "From c@d Tue Apr 21 16:00:59 2015\nsecond\n\n"
      ++ "From e@f Wed Apr 22 00:00:00 2015\nthird\n"))
    (by decide) (by decide) (by decide) (by decide) (by decide)

/-! ## Occurrences of the prefix -/

/-- If `sep` occurs at offset `k`, the search finds an occurrence no later. -/
theorem indexOf?_of_occurrence {sep : List Nat} :
    ∀ {s : List Nat} {k : Nat}, sep <+: s.drop k → ∃ j, j ≤ k ∧ indexOf? sep s = some j := by
  intro s
  induction s with
  | nil =>
    intro k h
    have : sep = [] := by
      rw [List.drop_nil] at h
      exact List.prefix_nil.mp h
    exact ⟨0, Nat.zero_le _, by simp [indexOf?, this]⟩
  | cons x xs ih =>
    intro k h
    by_cases hp : sep.isPrefixOf (x :: xs) = true
    · exact ⟨0, Nat.zero_le _, by simp [indexOf?, hp]⟩
    · cases k with
      | zero =>
        exfalso
        apply hp
        rw [List.drop_zero] at h
        exact List.isPrefixOf_iff_prefix.mpr h
      | succ k1 =>
        rw [List.drop_succ_cons] at h
        obtain ⟨j, hj, hidx⟩ := ih h
        exact ⟨j + 1, by omega, by simp [indexOf?, hp, hidx]⟩

/-- The search returns the offset of the first occurrence. -/
theorem indexOf?_first {sep s : List Nat} {k : Nat} (h : sep <+: s.drop k)
    (hfirst : ∀ j, j < k → ¬ sep <+: s.drop j) : indexOf? sep s = some k := by
  obtain ⟨j, hj, hidx⟩ := indexOf?_of_occurrence h
  rcases Nat.lt_or_ge j k with hlt | hge
  · exact absurd (indexOf?_starts hidx) (hfirst j hlt)
  · have : j = k := by omega
    rw [hidx, this]

/-- The search fails exactly when `sep` occurs nowhere. -/
theorem indexOf?_none_of_no_occurrence {sep s : List Nat}
    (h : ∀ k, ¬ sep <+: s.drop k) : indexOf? sep s = none := by
  cases hidx : indexOf? sep s with
  | none => rfl
  | some j => exact absurd (indexOf?_starts hidx) (h j)

/-- A span without the prefix has no separator. -/
theorem FindSeparator_no_prefix (va vt : List Nat → Bool) (data : List Nat)
    (h : indexOf? separatorPrefix data = none) :
    FindSeparator va vt data = .ok (-1, 0) := by
  rw [FindSeparator_eq]
  simp [firstCandidate, h]

/-- The prefix occurs in `pre ++ "From " ++ tail` at the end of `pre`. -/
theorem prefix_occurs (pre tail : List Nat) :
    separatorPrefix <+: (pre ++ separatorPrefix ++ tail).drop pre.length := by
  rw [List.append_assoc, List.drop_left]
  exact List.prefix_append _ _

/-! ## Rejected candidates -/

/-- A rejected first candidate: one pass asks for a retry just past the space
that ends the address candidate. -/
theorem firstCandidate_rejected (va vt : List Nat → Bool) (pre addr rest : List Nat)
    (hidx : indexOf? separatorPrefix (pre ++ separatorPrefix ++ (addr ++ 32 :: rest))
      = some pre.length)
    (h32 : 32 ∉ addr)
    (hbad : va addr = false ∨
      (va addr = true ∧ ∃ ts eol post, rest = ts ++ eol ++ post ∧ 10 ∉ ts ∧
        ((eol = [10] ∧ ts.getLast? ≠ some 13) ∨ eol = [13, 10]) ∧ vt ts = false)) :
    firstCandidate va vt (pre ++ separatorPrefix ++ (addr ++ 32 :: rest))
      = .retry (pre.length + 5 + (addr.length + 1)) := by
  rw [firstCandidate_of_index va vt pre _ hidx]
  rcases hbad with hva | ⟨hva, ts, eol, post, hrest, h10, heol, hvt⟩
  · rw [parseTail_bad_addr va vt addr rest h32 hva]
  · have heol2 : (eol = [10] ∧ ∀ ts1, ts ≠ ts1 ++ [13]) ∨ eol = [13, 10] := by
      rcases heol with ⟨he, hcr⟩ | he
      · left
        refine ⟨he, ?_⟩
        intro ts1 h1
        apply hcr
        rw [h1]
        simp
      · exact Or.inr he
    rw [hrest, parseTail_wellformed va vt addr ts eol post h32 hva h10 heol2]
    simp [hvt]

/-- Dropping everything up to the space that ends the address candidate. -/
theorem drop_past_space (pre addr rest : List Nat) :
    List.drop (pre.length + 5 + (addr.length + 1))
      (pre ++ separatorPrefix ++ (addr ++ 32 :: rest)) = rest := by
  have e : pre ++ separatorPrefix ++ (addr ++ 32 :: rest)
      = (pre ++ separatorPrefix ++ (addr ++ [32])) ++ rest := by simp
  have l : pre.length + 5 + (addr.length + 1)
      = (pre ++ separatorPrefix ++ (addr ++ [32])).length := by
    simp [separatorPrefix]; omega
  rw [e, l, List.drop_left]

/-- C11: a lone invalid candidate is rejected. If `data` contains exactly one
occurrence of `"From "`, and the candidate address (the bytes between that
prefix and the next space) is rejected by the address validator, or it is
accepted but the candidate timestamp (the bytes after that space up to the
next LF or CR LF) is rejected by the timestamp validator, then
`FindSeparator(data) = (-1, 0)` and `ScanMessage(data, true)` returns
`ErrorUnexpectedEOF`. -/
theorem C11_lone_invalid_candidate (va vt : List Nat → Bool)
    (data pre addr rest : List Nat)
    (hdata : data = pre ++ separatorPrefix ++ addr ++ [32] ++ rest)
    (huniq : ∀ k, k < data.length → separatorPrefix <+: data.drop k → k = pre.length)
    (h32 : 32 ∉ addr)
    (hbad : va addr = false ∨
      (va addr = true ∧ ∃ ts eol post, rest = ts ++ eol ++ post ∧ 10 ∉ ts ∧
        ((eol = [10] ∧ ts.getLast? ≠ some 13) ∨ eol = [13, 10]) ∧ vt ts = false)) :
    FindSeparator va vt data = .ok (-1, 0) ∧
    ScanMessage va vt data true = .ok (0, none, some .ErrorUnexpectedEOF) := by
  have hdata2 : data = pre ++ separatorPrefix ++ (addr ++ 32 :: rest) := by
    rw [hdata]; simp
  have h5 : separatorPrefix.length = 5 := rfl
  have hidx : indexOf? separatorPrefix data = some pre.length := by
    have hocc : separatorPrefix <+: data.drop pre.length := by
      rw [hdata2]; exact prefix_occurs pre _
    obtain ⟨j, hj, hj2⟩ := indexOf?_of_occurrence hocc
    have hle := indexOf?_le hj2
    have := huniq j (by omega) (indexOf?_starts hj2)
    rw [hj2, this]
  have hfc := firstCandidate_rejected va vt pre addr rest (by rw [← hdata2]; exact hidx) h32 hbad
  have hrest : indexOf? separatorPrefix rest = none := by
    apply indexOf?_none_of_no_occurrence
    intro k hk
    obtain ⟨j, _, hj2⟩ := indexOf?_of_occurrence hk
    have hle := indexOf?_le hj2
    have hocc := indexOf?_starts hj2
    have hd := drop_past_space pre addr rest
    rw [← hdata2] at hd
    rw [← hd, List.drop_drop] at hocc
    have hlen : data.length = pre.length + 5 + (addr.length + 1) + rest.length := by
      rw [hdata2]; simp [separatorPrefix]; omega
    have := huniq _ (by omega) hocc
    omega
  have hfs : FindSeparator va vt data = .ok (-1, 0) := by
    rw [FindSeparator_eq, hdata2, hfc]
    simp only
    rw [drop_past_space, FindSeparator_no_prefix va vt rest hrest]
    rfl
  refine ⟨hfs, ?_⟩
  rcases ScanMessage_cases va vt data true with ⟨_, hd, _⟩ | ⟨_, _, hsm⟩ | ⟨p, n, hf, _, _⟩
  · rw [hd] at hdata2
    have := congrArg List.length hdata2
    simp [separatorPrefix] at this
    omega
  · simpa using hsm
  · rw [hfs] at hf
    simp only [Except.ok.injEq, Prod.mk.injEq] at hf
    omega

/-- C11, on the test suite's "bad timestamp" span: the only candidate has a
valid address and the timestamp `"Mon Apr 20 02:10 2015"`. -/
theorem C11_lone_invalid_candidate_witness :
    FindSeparator addrSpecOk ctimeOk
      (bytesOf ("From 1498981366547862741-8cd918dd-8bbb-49f5-a4df-032f222154c9.mbox@xxx"
        ++ " Mon Apr 20 02:10 2015\n")) = .ok (-1, 0) ∧
    ScanMessage addrSpecOk ctimeOk
      (bytesOf ("From 1498981366547862741-8cd918dd-8bbb-49f5-a4df-032f222154c9.mbox@xxx"
        ++ " Mon Apr 20 02:10 2015\n")) true = .ok (0, none, some .ErrorUnexpectedEOF) :=
  C11_lone_invalid_candidate addrSpecOk ctimeOk _ []
    (bytesOf "1498981366547862741-8cd918dd-8bbb-49f5-a4df-032f222154c9.mbox@xxx")
    (bytesOf "Mon Apr 20 02:10 2015\n")
    (by decide) (by decide) (by decide)
    (Or.inr ⟨by decide, bytesOf "Mon Apr 20 02:10 2015", [10], [],
      by decide, by decide, Or.inl ⟨rfl, by decide⟩, by decide⟩)

/-- C12: no retry on a missing space or a missing end of line. If no space
occurs after the first occurrence of `"From "`, or the candidate address of
that first occurrence is valid but no linefeed occurs after the space that
follows it, then `FindSeparator(data) = (-1, 0)` outright: a single pass,
without any recursive call, already gives that answer. -/
theorem C12_no_retry_on_missing_space_or_eol (va vt : List Nat → Bool)
    (data pre tail : List Nat)
    (hdata : data = pre ++ separatorPrefix ++ tail)
    (hfirst : ∀ j, j < pre.length → ¬ separatorPrefix <+: data.drop j)
    (h : 32 ∉ tail ∨
      ∃ addr rest, tail = addr ++ [32] ++ rest ∧ 32 ∉ addr ∧ va addr = true ∧ 10 ∉ rest) :
    FindSeparator va vt data = .ok (-1, 0) ∧
    FindSeparatorAux va vt 1 data = .ok (-1, 0) := by
  have hidx : indexOf? separatorPrefix (pre ++ separatorPrefix ++ tail) = some pre.length := by
    apply indexOf?_first (prefix_occurs pre tail)
    rw [← hdata]
    exact hfirst
  have hpt : parseTail va vt tail = .absent := by
    rcases h with h32 | ⟨addr, rest, htail, h32, hva, h10⟩
    · simp [parseTail, indexByte?_none.mpr h32]
    · have htail2 : tail = addr ++ 32 :: rest := by rw [htail]; simp
      have t1 : List.take addr.length (addr ++ 32 :: rest) = addr := by simp
      have t2 : List.drop (addr.length + 1) (addr ++ 32 :: rest) = rest := by
        rw [List.drop_append_eq_append_drop]; simp
      rw [htail2]
      unfold parseTail
      rw [indexByte?_append addr rest h32]
      simp only [t1, t2, hva, Bool.not_true, Bool.false_eq_true, if_false,
        indexByte?_none.mpr h10]
  have hfc : firstCandidate va vt data = .absent := by
    rw [hdata, firstCandidate_of_index va vt pre tail hidx, hpt]
  constructor
  · rw [FindSeparator_eq, hfc]
  · rw [FindSeparatorAux_succ, hfc]

/-- C12, on the test suite's "missing eol" span: the address candidate
`...mbox@xxxMon` is valid and no linefeed follows. -/
theorem C12_no_retry_on_missing_space_or_eol_witness :
    FindSeparator addrSpecOk ctimeOk
      (bytesOf ("From 1498981366547862741-8cd918dd-8bbb-49f5-a4df-032f222154c9.mbox@xxxMon"
        ++ " Apr 20 02:27:10 2015")) = .ok (-1, 0) ∧
    FindSeparatorAux addrSpecOk ctimeOk 1
      (bytesOf ("From 1498981366547862741-8cd918dd-8bbb-49f5-a4df-032f222154c9.mbox@xxxMon"
        ++ " Apr 20 02:27:10 2015")) = .ok (-1, 0) :=
  C12_no_retry_on_missing_space_or_eol addrSpecOk ctimeOk _ []
    (bytesOf ("1498981366547862741-8cd918dd-8bbb-49f5-a4df-032f222154c9.mbox@xxxMon"
      ++ " Apr 20 02:27:10 2015"))
    (by decide) (by decide)
    (Or.inr ⟨bytesOf "1498981366547862741-8cd918dd-8bbb-49f5-a4df-032f222154c9.mbox@xxxMon",
      bytesOf "Apr 20 02:27:10 2015", by decide, by decide, by decide, by decide⟩)

/-- C15: retry with correct re-offsetting. Let the first `"From "` candidate of
`data` be followed by a space at offset `q`, and let the candidate address be
invalid, or valid with a linefeed following and the candidate timestamp
invalid. With `p = q + 1` and `FindSeparator(data[p:]) = (i, size)`:
`FindSeparator(data) = (-1, 0)` when `i < 0`, and
`FindSeparator(data) = (p + i, size)` when `i >= 0`. -/
theorem C15_retry_reoffsets (va vt : List Nat → Bool)
    (data pre addr rest : List Nat) (i size : Int)
    (hdata : data = pre ++ separatorPrefix ++ addr ++ [32] ++ rest)
    (hfirst : ∀ j, j < pre.length → ¬ separatorPrefix <+: data.drop j)
    (h32 : 32 ∉ addr)
    (hbad : va addr = false ∨
      (va addr = true ∧ ∃ ts eol post, rest = ts ++ eol ++ post ∧ 10 ∉ ts ∧
        ((eol = [10] ∧ ts.getLast? ≠ some 13) ∨ eol = [13, 10]) ∧ vt ts = false))
    (hrest : FindSeparator va vt rest = .ok (i, size)) :
    sliceFrom data (((pre.length + 5 + addr.length : Nat) : Int) + 1) = .ok rest ∧
    (i < 0 → FindSeparator va vt data = .ok (-1, 0)) ∧
    (0 ≤ i →
      FindSeparator va vt data
        = .ok (((pre.length + 5 + addr.length : Nat) : Int) + 1 + i, size)) := by
  have hdata2 : data = pre ++ separatorPrefix ++ (addr ++ 32 :: rest) := by
    rw [hdata]; simp
  have hidx : indexOf? separatorPrefix (pre ++ separatorPrefix ++ (addr ++ 32 :: rest))
      = some pre.length := by
    apply indexOf?_first (prefix_occurs pre _)
    rw [← hdata2]
    exact hfirst
  have hfc := firstCandidate_rejected va vt pre addr rest hidx h32 hbad
  have hd := drop_past_space pre addr rest
  have hlen : data.length = pre.length + 5 + (addr.length + 1) + rest.length := by
    rw [hdata2]; simp [separatorPrefix]; omega
  have e1 : (((pre.length + 5 + addr.length : Nat) : Int) + 1)
      = ((pre.length + 5 + (addr.length + 1) : Nat) : Int) := by
    push_cast; ring
  have hfs : FindSeparator va vt data
      = .ok (offsetResult ((pre.length + 5 + (addr.length + 1) : Nat) : Int) (i, size)) := by
    rw [FindSeparator_eq, hdata2, hfc]
    simp only
    rw [hd, hrest]
    rfl
  refine ⟨?_, ?_, ?_⟩
  · rw [e1, sliceFrom_ok data _ (by omega), hdata2, hd]
  · intro hi
    have := FindSeparator_notFound hrest hi
    rw [hrest] at this
    simp only [Except.ok.injEq, Prod.mk.injEq] at this
    rw [hfs, this.1, this.2]
    simp [offsetResult]
  · intro hi
    have hne : i ≠ -1 := by omega
    rw [hfs, e1]
    simp [offsetResult, hne]

/-- C15, on the test suite's "suspect front data" span: the first candidate has
a valid address and an invalid timestamp, the space is at offset 70, the search
on `data[71:]` gives `(11, 96)`, and the result is `(82, 96)`. -/
theorem C15_retry_reoffsets_witness :
    FindSeparator addrSpecOk ctimeOk
      (bytesOf ("From 1498981366547862741-8cd918dd-8bbb-49f5-a4df-032f222154c9.mbox@xxx"
        ++ " Mon Apr 20 From 1498981366547862741-8cd918dd-8bbb-49f5-a4df-032f222154c9"
        ++ ".mbox@xxx Mon Apr 20 02:27:10 2015\n")) = .ok (82, 96) :=
  (C15_retry_reoffsets addrSpecOk ctimeOk _ []
    (bytesOf "1498981366547862741-8cd918dd-8bbb-49f5-a4df-032f222154c9.mbox@xxx")
    (bytesOf ("Mon Apr 20 From 1498981366547862741-8cd918dd-8bbb-49f5-a4df-032f222154c9"
        ++ ".mbox@xxx Mon Apr 20 02:27:10 2015\n")) 11 96
    (by decide) (by decide) (by decide)
    (Or.inr ⟨by decide,
      bytesOf ("Mon Apr 20 From 1498981366547862741-8cd918dd-8bbb-49f5-a4df-032f222154c9"
        ++ ".mbox@xxx Mon Apr 20 02:27:10 2015"), [10], [],
      by decide, by decide, Or.inl ⟨rfl, by decide⟩, by decide⟩)
    (by decide)).2.2 (by decide)

/-! ## Termination and index safety -/

/-- Fuel `len(data) / 6 + 1` is enough: every retry drops at least six bytes. -/
theorem FindSeparatorAux_fuel_sixth (va vt : List Nat → Bool) :
    ∀ (fuel : Nat) (data : List Nat), data.length / 6 < fuel →
      FindSeparatorAux va vt fuel data = FindSeparatorAux va vt (data.length + 1) data := by
  intro fuel
  induction fuel using Nat.strong_induction_on with
  | _ fuel ih =>
    intro data hlt
    cases fuel with
    | zero => omega
    | succ f =>
      rw [FindSeparatorAux_succ, FindSeparatorAux_succ]
      cases hc : firstCandidate va vt data with
      | absent => rfl
      | found s n => rfl
      | retry t =>
        have hb := firstCandidate_retry_bounds hc
        have hl : (List.drop t data).length / 6 < f := by
          simp only [List.length_drop]; omega
        have hl2 : (List.drop t data).length < data.length := by
          simp only [List.length_drop]; omega
        simp only
        rw [ih f (Nat.lt_succ_self f) _ hl, FindSeparatorAux_fuel va vt data.length _ hl2]

/-- No run of the search, whatever its fuel, leaves the span. -/
theorem FindSeparatorAux_in_range (va vt : List Nat → Bool) :
    ∀ (fuel : Nat) (data : List Nat),
      FindSeparatorAux va vt fuel data ≠ .error .indexOutOfRange := by
  intro fuel
  induction fuel with
  | zero =>
    intro data h
    simp [FindSeparatorAux] at h
  | succ f ih =>
    intro data
    rw [FindSeparatorAux_succ]
    cases hc : firstCandidate va vt data with
    | absent => simp
    | found s n => simp
    | retry t =>
      simp only
      cases hr : FindSeparatorAux va vt f (List.drop t data) with
      | ok r => simp [Except.map]
      | error err =>
        simp only [Except.map]
        intro h
        apply ih (List.drop t data)
        rw [hr]
        simpa using h

/-- C16: termination. `FindSeparator` returns on every span; each recursive
retry is made on `data[timeStart:]` with `timeStart >= 6`, a strictly shorter
span; and `len(data) / 6 + 1` invocations are enough: the search bounded to
that many nested calls already gives the result. -/
theorem C16_termination (va vt : List Nat → Bool) (data : List Nat) :
    (∃ r, FindSeparator va vt data = .ok r) ∧
    (∀ fuel, data.length / 6 + 1 ≤ fuel →
      FindSeparatorAux va vt fuel data = FindSeparator va vt data) ∧
    (∀ t, firstCandidate va vt data = .retry t →
      6 ≤ t ∧ t ≤ data.length ∧ (data.drop t).length < data.length) := by
  refine ⟨?_, ?_, ?_⟩
  · obtain ⟨r, hr, _⟩ := FindSeparator_sound va vt data
    exact ⟨r, hr⟩
  · intro fuel hf
    unfold FindSeparator
    exact FindSeparatorAux_fuel_sixth va vt fuel data (by omega)
  · intro t ht
    have hb := firstCandidate_retry_bounds ht
    refine ⟨hb.1, hb.2, ?_⟩
    simp only [List.length_drop]
    omega

/-- C20: index safety. For every span and every `atEOF`, `FindSeparator` and
`ScanMessage` return a result, so that no slice or index expression in them
(`data[addrStart:]`, `data[addrStart:addrEnd]`, `data[timeStart:]`, the probe
`data[timeStart+timeEnd-1]`, `data[timeStart:timeEnd]`, `data[idx+size:]`,
`data[idx:newidx]`, `data[idx:]`) is out of range; and a search cut short by
its call bound never stops on an out-of-range access either. -/
theorem C20_index_safety (va vt : List Nat → Bool) (data : List Nat) (atEOF : Bool) :
    (∃ r, FindSeparator va vt data = .ok r) ∧
    (∃ r, ScanMessage va vt data atEOF = .ok r) ∧
    (∀ fuel, FindSeparatorAux va vt fuel data ≠ .error .indexOutOfRange) := by
  refine ⟨?_, ?_, fun fuel => FindSeparatorAux_in_range va vt fuel data⟩
  · obtain ⟨r, hr, _⟩ := FindSeparator_sound va vt data
    exact ⟨r, hr⟩
  · rcases ScanMessage_cases va vt data atEOF with
      ⟨_, _, hsm⟩ | ⟨_, _, hsm⟩ | ⟨p, n, _, _, hc⟩
    · exact ⟨_, hsm⟩
    · exact ⟨_, hsm⟩
    · rcases hc with ⟨_, hsm⟩ | ⟨q, m, _, _, hsm⟩
      · cases atEOF with
        | true => exact ⟨_, by simpa using hsm⟩
        | false => exact ⟨_, by simpa using hsm⟩
      · exact ⟨_, hsm⟩

/-! ## The branches without retry -/

theorem getElem?_after_prefix (pre tail : List Nat) (j : Nat) :
    (pre ++ separatorPrefix ++ tail)[pre.length + 5 + j]? = tail[j]? := by
  have l : pre.length + 5 = (pre ++ separatorPrefix).length := by simp [separatorPrefix]
  rw [l, getElem?_append_add]

/-- C19: the no-retry branches lose nothing. If `FindSeparator` stops at its
first `"From "` candidate because no space follows the prefix, or because the
address is valid but no linefeed follows, then `data` contains no syntactically
valid separator line at any offset. -/
theorem C19_no_retry_loses_nothing (va vt : List Nat → Bool)
    (data pre tail : List Nat)
    (hdata : data = pre ++ separatorPrefix ++ tail)
    (hfirst : ∀ j, j < pre.length → ¬ separatorPrefix <+: data.drop j)
    (h : 32 ∉ tail ∨
      ∃ addr rest, tail = addr ++ [32] ++ rest ∧ 32 ∉ addr ∧ va addr = true ∧ 10 ∉ rest) :
    ¬ ∃ p n, SeparatorAt va vt data p n := by
  rintro ⟨p, n, addr1, ts1, eol1, post1, hd, _, _, _, _, _, heol1⟩
  have hocc : separatorPrefix <+: data.drop p := by
    rw [hd]
    simp only [List.append_assoc]
    exact List.prefix_append _ _
  have hp : pre.length ≤ p := by
    rcases Nat.lt_or_ge p pre.length with hlt | hge
    · exact absurd hocc (hfirst p hlt)
    · exact hge
  -- the space that ends the address of the line at `p`
  have hsp : data[p + (5 + addr1.length)]? = some 32 := by
    rw [← List.getElem?_drop, hd]
    have e : separatorPrefix ++ addr1 ++ [32] ++ ts1 ++ eol1 ++ post1
        = (separatorPrefix ++ addr1) ++ 32 :: (ts1 ++ eol1 ++ post1) := by simp
    have l : 5 + addr1.length = (separatorPrefix ++ addr1).length := by
      simp [separatorPrefix]; omega
    rw [e, l, getElem?_append_length]
  -- the linefeed that ends the line at `p`
  have hlf : ∃ w, data[p + (5 + addr1.length) + 1 + ts1.length + w]? = some 10 := by
    rcases heol1 with he | he
    · refine ⟨0, ?_⟩
      rw [Nat.add_assoc p, Nat.add_assoc p, Nat.add_assoc p, ← List.getElem?_drop, hd, he]
      have e : separatorPrefix ++ addr1 ++ [32] ++ ts1 ++ [10] ++ post1
          = (separatorPrefix ++ addr1 ++ [32] ++ ts1) ++ 10 :: post1 := by simp
      have l : 5 + addr1.length + 1 + ts1.length + 0
          = (separatorPrefix ++ addr1 ++ [32] ++ ts1).length := by
        simp [separatorPrefix]; omega
      rw [e, l, getElem?_append_length]
    · refine ⟨1, ?_⟩
      rw [Nat.add_assoc p, Nat.add_assoc p, Nat.add_assoc p, ← List.getElem?_drop, hd, he]
      have e : separatorPrefix ++ addr1 ++ [32] ++ ts1 ++ [13, 10] ++ post1
          = (separatorPrefix ++ addr1 ++ [32] ++ ts1 ++ [13]) ++ 10 :: post1 := by simp
      have l : 5 + addr1.length + 1 + ts1.length + 1
          = (separatorPrefix ++ addr1 ++ [32] ++ ts1 ++ [13]).length := by
        simp [separatorPrefix]; omega
      rw [e, l, getElem?_append_length]
  obtain ⟨w, hlf⟩ := hlf
  -- both bytes lie in `tail`
  have e1 : p + (5 + addr1.length) = pre.length + 5 + (p - pre.length + addr1.length) := by
    omega
  rw [hdata, e1, getElem?_after_prefix] at hsp
  have e2 : p + (5 + addr1.length) + 1 + ts1.length + w
      = pre.length + 5 + (p - pre.length + addr1.length + 1 + ts1.length + w) := by omega
  rw [hdata, e2, getElem?_after_prefix] at hlf
  rcases h with h32 | ⟨addr, rest, htail, h32, _, h10⟩
  · exact h32 (List.getElem?_mem hsp)
  · have htail2 : tail = addr ++ 32 :: rest := by rw [htail]; simp
    rw [htail2] at hsp hlf
    have hge : addr.length ≤ p - pre.length + addr1.length := by
      rcases Nat.lt_or_ge (p - pre.length + addr1.length) addr.length with hlt | hge
      · exfalso
        rw [List.getElem?_append_left hlt] at hsp
        exact h32 (List.getElem?_mem hsp)
      · exact hge
    have e3 : p - pre.length + addr1.length + 1 + ts1.length + w
        = addr.length + ((p - pre.length + addr1.length - addr.length + ts1.length + w) + 1) := by
      omega
    rw [e3, getElem?_append_add, List.getElem?_cons_succ] at hlf
    exact h10 (List.getElem?_mem hlf)

/-- C19, on the test suite's "missing second space and date" span: no space
follows the prefix, and the span holds no separator line. -/
theorem C19_no_retry_loses_nothing_witness :
    ¬ ∃ p n, SeparatorAt addrSpecOk ctimeOk
      (bytesOf "From 1498981366547862741-8cd918dd-8bbb-49f5-a4df-032f222154c9.mbox") p n :=
  C19_no_retry_loses_nothing addrSpecOk ctimeOk _ []
    (bytesOf "1498981366547862741-8cd918dd-8bbb-49f5-a4df-032f222154c9.mbox")
    (by decide) (by decide) (Or.inl (by decide))

/-! ## Stability under extension of the span -/

/-- An accepted first candidate stays accepted when bytes are appended. -/
theorem firstCandidate_append_found {va vt : List Nat → Bool} {d : List Nat} {s n : Nat}
    (h : firstCandidate va vt d = .found s n) (e : List Nat) :
    firstCandidate va vt (d ++ e) = .found s n := by
  obtain ⟨pre, addr, ts, eol, post, hdata, hpre, hidx, hn, h32, hva, h10, hvt, heol⟩ :=
    firstCandidate_found h
  have hidx2 : indexOf? separatorPrefix
      (pre ++ separatorPrefix ++ (addr ++ 32 :: (ts ++ eol ++ (post ++ e)))) = some pre.length := by
    apply indexOf?_tail_irrelevant pre (addr ++ 32 :: (ts ++ eol ++ post))
    rw [← hdata, hidx, hpre]
  have hnew : d ++ e = pre ++ separatorPrefix ++ (addr ++ 32 :: (ts ++ eol ++ (post ++ e))) := by
    rw [hdata]; simp
  rw [hnew, firstCandidate_of_index va vt pre _ hidx2,
    parseTail_wellformed va vt addr ts eol (post ++ e) h32 hva h10 heol]
  simp [hvt, hn, hpre]

/-- A rejected first candidate stays rejected when bytes are appended. -/
theorem firstCandidate_append_retry {va vt : List Nat → Bool} {d : List Nat} {t : Nat}
    (h : firstCandidate va vt d = .retry t) (e : List Nat) :
    firstCandidate va vt (d ++ e) = .retry t := by
  obtain ⟨pre, addr, rest, hdata, hidx, ht, h32, hcase⟩ := firstCandidate_retry h
  have hidx2 : indexOf? separatorPrefix
      (pre ++ separatorPrefix ++ (addr ++ 32 :: (rest ++ e))) = some pre.length := by
    apply indexOf?_tail_irrelevant pre (addr ++ 32 :: rest)
    rw [← hdata, hidx]
  have hnew : d ++ e = pre ++ separatorPrefix ++ (addr ++ 32 :: (rest ++ e)) := by
    rw [hdata]; simp
  rw [hnew, firstCandidate_of_index va vt pre _ hidx2]
  rcases hcase with hva | ⟨hva, ts, eol, post, hrest, h10, hvt, heol⟩
  · rw [parseTail_bad_addr va vt addr _ h32 hva, ht]
  · have hr2 : rest ++ e = ts ++ eol ++ (post ++ e) := by rw [hrest]; simp
    rw [hr2, parseTail_wellformed va vt addr ts eol (post ++ e) h32 hva h10 heol]
    simp [hvt, ht]

/-- A found separator is found again, at the same place, in any extension of
the span. -/
theorem FindSeparator_append (va vt : List Nat → Bool) (d : List Nat) :
    ∃ r, FindSeparator va vt d = .ok r ∧
      (0 ≤ r.1 → ∀ e, FindSeparator va vt (d ++ e) = .ok r) := by
  apply FindSeparator_induct va vt
    (fun d r => 0 ≤ r.1 → ∀ e, FindSeparator va vt (d ++ e) = .ok r)
  · intro d _ h0
    simp at h0
  · intro d s n hc _ e
    rw [FindSeparator_eq, firstCandidate_append_found hc e]
  · intro d t r hc hr hP h0 e
    have hb := firstCandidate_retry_bounds hc
    obtain ⟨r2, hr2, hcase⟩ := FindSeparator_sound va vt (d.drop t)
    rw [hr] at hr2
    simp only [Except.ok.injEq] at hr2
    subst hr2
    rcases hcase with h1 | ⟨p, n, hpn, _⟩
    · subst h1
      simp [offsetResult] at h0
    · have hr0 : 0 ≤ r.1 := by rw [hpn]; simp
      have hd : List.drop t (d ++ e) = List.drop t d ++ e := by
        rw [List.drop_append_of_le_length hb.2]
      rw [FindSeparator_eq, firstCandidate_append_retry hc e]
      simp only
      rw [hd, hP hr0 e]
      rfl

/-- C17: chunking independence. For all spans `d` and `e`: if
`FindSeparator(d) = (idx, size)` with `idx >= 0`, then
`FindSeparator(d ++ e) = (idx, size)`; and if `ScanMessage(d, false)` returns a
token `t` with advance `a`, then `ScanMessage(d ++ e, atEOF)` returns the same
advance `a`, the same token `t` and a nil error, for every `atEOF`. -/
theorem C17_chunking_independence (va vt : List Nat → Bool) (d e : List Nat) :
    (∀ idx size : Int, FindSeparator va vt d = .ok (idx, size) → 0 ≤ idx →
      FindSeparator va vt (d ++ e) = .ok (idx, size)) ∧
    (∀ (a : Int) (t : List Nat) (err : Option ScanError) (atEOF : Bool),
      ScanMessage va vt d false = .ok (a, some t, err) →
      ScanMessage va vt (d ++ e) atEOF = .ok (a, some t, none)) := by
  have hext : ∀ (d : List Nat) (idx size : Int), FindSeparator va vt d = .ok (idx, size) →
      0 ≤ idx → FindSeparator va vt (d ++ e) = .ok (idx, size) := by
    intro d idx size h h0
    obtain ⟨r, hr, hP⟩ := FindSeparator_append va vt d
    rw [hr] at h
    simp only [Except.ok.injEq] at h
    subst h
    exact hP h0 e
  refine ⟨hext d, ?_⟩
  intro a t err atEOF h
  rcases ScanMessage_cases va vt d false with
    ⟨ha, _, _⟩ | ⟨_, _, hsm⟩ | ⟨p, n, hf, hacc, hc⟩
  · cases ha
  · rw [hsm] at h
    simp at h
  · rcases hc with ⟨_, hsm⟩ | ⟨q, m, hf2, hacc2, hsm⟩
    · rw [hsm] at h
      simp at h
    · rw [hsm] at h
      simp only [Except.ok.injEq, Prod.mk.injEq, Option.some.injEq] at h
      obtain ⟨ha, ht, _⟩ := h
      have hb := hacc.bounds
      have hb2 := hacc2.bounds
      simp only [List.length_drop] at hb2
      have g1 := hext d p n hf (by omega)
      have hd : List.drop (p + n) (d ++ e) = List.drop (p + n) d ++ e := by
        rw [List.drop_append_of_le_length hb.2]
      have g2 := hext (List.drop (p + n) d) q m hf2 (by omega)
      rw [← hd] at g2
      have e1 : ((p : Int) + (n : Int)) = ((p + n : Nat) : Int) := by push_cast; rfl
      have hsl : sliceFrom (d ++ e) ((p : Int) + (n : Int)) = .ok (List.drop (p + n) (d ++ e)) := by
        rw [e1, sliceFrom_ok (d ++ e) (p + n) (by simp; omega)]
      obtain ⟨p2, k2, q2, m2, hp2, hk2, hq2, _, _, _, _, hsm2⟩ :=
        ScanMessage_found_next atEOF g1 (by omega) hsl g2 (by omega)
      have hp3 : p2 = p := by exact_mod_cast hp2.symm
      have hk3 : k2 = n := by exact_mod_cast hk2.symm
      have hq3 : q2 = q := by exact_mod_cast hq2.symm
      subst hp3 hk3 hq3
      rw [hsm2, ← ha, ← ht]
      have htk : List.take (k2 + q2) (List.drop p2 (d ++ e))
          = List.take (k2 + q2) (List.drop p2 d) := by
        rw [List.drop_append_of_le_length (by omega), List.take_append_of_le_length]
        simp only [List.length_drop]
        omega
      rw [htk]

/-! ## The timestamp layout -/

/-- C13 fails on the code: the layout `ctimeFormat` has the day element `02`,
two decimal digits, so `time.Parse` rejects the space-padded day of a ctime
timestamp. For every valid address `addr`,
`FindSeparator("From " ++ addr ++ " Mon Apr  6 02:27:10 2015\n")` is `(-1, 0)`,
whereas the line with `Mon Apr 20 16:27:10 2015` is found at index 0 with its
full length. Go's ctime layout `time.ANSIC`, with the day element `_2`, accepts
the space-padded timestamp. -/
theorem C13_space_padded_day_rejected (va : List Nat → Bool) (addr : List Nat)
    (h32 : 32 ∉ addr) (hva : va addr = true) :
    FindSeparator va (goTimeOk ctimeFormat)
      (separatorPrefix ++ addr ++ [32] ++ bytesOf "Mon Apr  6 02:27:10 2015" ++ [10])
      = .ok (-1, 0) ∧
    FindSeparator va (goTimeOk ctimeFormat)
      (separatorPrefix ++ addr ++ [32] ++ bytesOf "Mon Apr 20 16:27:10 2015" ++ [10])
      = .ok (0, ((separatorPrefix ++ addr ++ [32] ++ bytesOf "Mon Apr 20 16:27:10 2015"
          ++ [10]).length : Int)) ∧
    goTimeOk ansicFormat (bytesOf "Mon Apr  6 02:27:10 2015") = true := by
  refine ⟨?_, ?_, by decide⟩
  · have hd : separatorPrefix ++ addr ++ [32] ++ bytesOf "Mon Apr  6 02:27:10 2015" ++ [10]
        = [] ++ separatorPrefix ++ (addr ++ 32 :: bytesOf "Mon Apr  6 02:27:10 2015\n") := by
      have : bytesOf "Mon Apr  6 02:27:10 2015\n" = bytesOf "Mon Apr  6 02:27:10 2015" ++ [10] := by
        decide
      rw [this]; simp
    have hfc := firstCandidate_rejected va (goTimeOk ctimeFormat) [] addr
      (bytesOf "Mon Apr  6 02:27:10 2015\n") (indexOf?_at_head _) h32
      (Or.inr ⟨hva, bytesOf "Mon Apr  6 02:27:10 2015", [10], [], by decide, by decide,
        Or.inl ⟨rfl, by decide⟩, by decide⟩)
    have hnone : indexOf? separatorPrefix (bytesOf "Mon Apr  6 02:27:10 2015\n") = none := by
      decide
    rw [hd, FindSeparator_eq, hfc]
    simp only
    rw [drop_past_space, FindSeparator_no_prefix _ _ _ hnone]
    rfl
  · have hacc : AcceptedAt va (goTimeOk ctimeFormat)
        (separatorPrefix ++ addr ++ [32] ++ bytesOf "Mon Apr 20 16:27:10 2015" ++ [10]) 0
        (5 + (addr.length + 1 + (bytesOf "Mon Apr 20 16:27:10 2015").length
          + ([10] : List Nat).length)) := by
      refine ⟨addr, bytesOf "Mon Apr 20 16:27:10 2015", [10], [], by simp, rfl, h32, hva,
        by decide, by decide, Or.inl ⟨rfl, ?_⟩⟩
      intro ts1 h1
      have := congrArg List.getLast? h1
      simp at this
      revert this
      decide
    have := hacc.find_drop
    simp only [List.drop_zero] at this
    rw [this]
    simp [separatorPrefix]
    omega

/-- C13 fails on the code, for the address `a@b`: the separator line
`"From a@b Mon Apr  6 02:27:10 2015\n"` is not found. -/
theorem C13_space_padded_day_rejected_witness :
    FindSeparator addrSpecOk (goTimeOk ctimeFormat)
      (separatorPrefix ++ bytesOf "a@b" ++ [32] ++ bytesOf "Mon Apr  6 02:27:10 2015" ++ [10])
      = .ok (-1, 0) ∧
    FindSeparator addrSpecOk (goTimeOk ctimeFormat)
      (separatorPrefix ++ bytesOf "a@b" ++ [32] ++ bytesOf "Mon Apr 20 16:27:10 2015" ++ [10])
      = .ok (0, ((separatorPrefix ++ bytesOf "a@b" ++ [32] ++ bytesOf "Mon Apr 20 16:27:10 2015"
          ++ [10]).length : Int)) ∧
    goTimeOk ansicFormat (bytesOf "Mon Apr  6 02:27:10 2015") = true :=
  C13_space_padded_day_rejected addrSpecOk (bytesOf "a@b") (by decide) (by decide)

/-! ## The tokenizer on a source that makes no progress -/

/-- One read of a source that returns nothing, into an empty buffer that has
room or may grow. -/
theorem fillStep_no_progress (source : ByteSource) (threshold : Nat) (t : Tokenizer)
    (hsrc : ∀ k n, source k n = { bytes := [], signal := .moreDataMayFollow })
    (hp : t.pending = []) (hc : 0 < t.capacity ∨ 0 < t.maxSize) :
    ∃ c, (0 < c ∨ 0 < t.maxSize) ∧
      fillStep source threshold t =
        if threshold < t.emptyReads + 1 then
          .inr (false, { t with capacity := c, reads := t.reads + 1,
                                emptyReads := t.emptyReads + 1,
                                stickyError := some .SourceNoProgress, token := none })
        else .inl { t with capacity := c, reads := t.reads + 1,
                           emptyReads := t.emptyReads + 1 } := by
  by_cases h0 : 0 = t.capacity
  · have hm : 0 < t.maxSize := by omega
    have hm2 : ¬ (t.maxSize ≤ t.capacity) := by omega
    refine ⟨min (max 1 (2 * t.capacity)) t.maxSize, Or.inr hm, ?_⟩
    unfold fillStep
    simp only [hp, List.length_nil, h0, hm2, and_false, if_false, hsrc, List.append_nil,
      if_true]
  · refine ⟨t.capacity, hc, ?_⟩
    unfold fillStep
    simp only [hp, List.length_nil, h0, false_and, if_false, hsrc, List.append_nil, if_true]

/-- The driver loop on a source that returns nothing: it stops after as many
reads as are left before the threshold is passed. -/
theorem advanceLoop_no_progress (boundary : List Nat → Bool → Decision)
    (source : ByteSource) (threshold budget : Nat)
    (hsrc : ∀ k n, source k n = { bytes := [], signal := .moreDataMayFollow }) :
    ∀ (k : Nat) (t : Tokenizer), t.pending = [] → t.exhausted = false →
      t.stickyError = none → (0 < t.capacity ∨ 0 < t.maxSize) →
      t.emptyReads + k = threshold + 1 → 1 ≤ k →
      ∀ fuel, k ≤ fuel →
        ∃ t1, advanceLoop boundary source threshold budget fuel t = some (false, t1) ∧
          t1.stickyError = some .SourceNoProgress ∧ t1.reads = t.reads + k := by
  intro k
  induction k with
  | zero => intro t _ _ _ _ _ h1; omega
  | succ k ih =>
    intro t hp hex herr hcap hk _ fuel hfuel
    cases fuel with
    | zero => omega
    | succ f =>
      obtain ⟨c, hc, hfill⟩ := fillStep_no_progress source threshold t hsrc hp hcap
      unfold advanceLoop
      simp only [hp, hex, herr, Option.isSome_none, Bool.or_self, ne_eq, not_true_eq_false,
        Bool.false_eq_true, or_self, if_false]
      rw [hfill]
      by_cases hth : threshold < t.emptyReads + 1
      · simp only [hth, if_true]
        exact ⟨_, rfl, rfl, by simp; omega⟩
      · simp only [hth, if_false]
        have := ih { t with capacity := c, reads := t.reads + 1,
                            emptyReads := t.emptyReads + 1 }
          hp hex herr hc (by simp; omega) (by omega) f (by omega)
        obtain ⟨t1, h1, h2, h3⟩ := this
        refine ⟨t1, h1, h2, ?_⟩
        rw [h3]
        simp
        omega

/-- The first pass of the driver loop on a fresh tokenizer with nothing
allocated and a ceiling of zero: the buffer is full and may not grow, so the
loop ends before any read. -/
theorem advanceLoop_no_room (boundary : List Nat → Bool → Decision)
    (source : ByteSource) (threshold budget fuel : Nat) :
    advanceLoop boundary source threshold budget (fuel + 1) (newTokenizer 0 0)
      = some (false, { newTokenizer 0 0 with stickyError := some .TokenTooLarge }) := by
  unfold advanceLoop
  simp [newTokenizer, fillStep]

/-- C14 (amended): no-progress termination. For a byte source whose every read
returns zero bytes with no error and no end-of-stream signal, `advance()` on a
fresh tokenizer returns false after at most `threshold + 1` reads, for every
bound on the passes of its loop that allows that many. When the buffer has room
or may grow (`0 < capacity` or `0 < maxSize`) it does so after exactly
`threshold + 1` reads and `lastError()` reports SourceNoProgress. When nothing
is allocated and the ceiling is zero, it does so before any read and
`lastError()` reports TokenTooLarge instead. -/
theorem C14_no_progress_termination (boundary : List Nat → Bool → Decision)
    (source : ByteSource) (threshold budget capacity maxSize : Nat)
    (hsrc : ∀ k n, source k n = { bytes := [], signal := .moreDataMayFollow }) :
    ∀ fuel, threshold + 1 ≤ fuel →
      ∃ t, advance boundary source threshold budget fuel (newTokenizer capacity maxSize)
          = some (false, t) ∧
        t.reads ≤ threshold + 1 ∧
        ((0 < capacity ∨ 0 < maxSize) →
          lastError t = some .SourceNoProgress ∧ t.reads = threshold + 1) ∧
        (capacity = 0 ∧ maxSize = 0 →
          lastError t = some .TokenTooLarge ∧ t.reads = 0) := by
  intro fuel hfuel
  by_cases hroom : 0 < capacity ∨ 0 < maxSize
  · obtain ⟨t1, h1, h2, h3⟩ := advanceLoop_no_progress boundary source threshold budget hsrc
      (threshold + 1) (newTokenizer capacity maxSize) rfl rfl rfl hroom
      (by simp [newTokenizer]) (by omega) fuel hfuel
    have hr : t1.reads = threshold + 1 := by
      rw [h3]
      simp [newTokenizer]
    refine ⟨t1, ?_, by omega, fun _ => ⟨h2, hr⟩, fun h0 => ?_⟩
    · simp only [advance, newTokenizer]
      exact h1
    · omega
  · have hc : capacity = 0 := by omega
    have hm : maxSize = 0 := by omega
    subst hc
    subst hm
    obtain ⟨f, rfl⟩ : ∃ f, fuel = f + 1 := ⟨fuel - 1, by omega⟩
    refine ⟨{ newTokenizer 0 0 with stickyError := some .TokenTooLarge }, ?_, ?_,
      fun h => absurd h hroom, fun _ => ⟨rfl, rfl⟩⟩
    · have h := advanceLoop_no_room boundary source threshold budget f
      simp only [advance, newTokenizer] at h ⊢
      exact h
    · simp [newTokenizer]

/-- C14 (amended), for the source `endlessZeros`, threshold 100, a 4096-byte
buffer under a ceiling of 65536 and `ScanMessage` as the boundary function:
`advance()` returns false after 101 reads with SourceNoProgress. -/
theorem C14_no_progress_termination_witness :
    ∃ t, advance (messageSplitter addrSpecOk ctimeOk) endlessZeros 100 100 101
          (newTokenizer 4096 65536) = some (false, t) ∧
      lastError t = some .SourceNoProgress ∧ t.reads = 100 + 1 := by
  obtain ⟨t, h1, _, h2, _⟩ :=
    C14_no_progress_termination (messageSplitter addrSpecOk ctimeOk) endlessZeros 100 100
      4096 65536 (fun _ _ => rfl) 101 (by decide)
  exact ⟨t, h1, h2 (Or.inl (by decide))⟩

/-- C14 as stated fails: on the source `endlessZeros`, a fresh tokenizer with
nothing allocated and a ceiling of zero makes `advance()` return false before
any read, and `lastError()` then reports TokenTooLarge, not SourceNoProgress. -/
theorem C14_no_progress_counterexample :
    advance (messageSplitter addrSpecOk ctimeOk) endlessZeros 100 100 101 (newTokenizer 0 0)
      = some (false, { newTokenizer 0 0 with stickyError := some .TokenTooLarge }) ∧
    lastError { newTokenizer 0 0 with stickyError := some .TokenTooLarge }
      ≠ some .SourceNoProgress ∧
    ¬ ∃ t, advance (messageSplitter addrSpecOk ctimeOk) endlessZeros 100 100 101
          (newTokenizer 0 0) = some (false, t) ∧
        lastError t = some .SourceNoProgress := by
  have h : advance (messageSplitter addrSpecOk ctimeOk) endlessZeros 100 100 101
      (newTokenizer 0 0)
      = some (false, { newTokenizer 0 0 with stickyError := some .TokenTooLarge }) := by
    have h := advanceLoop_no_room (messageSplitter addrSpecOk ctimeOk) endlessZeros 100 100 100
    simp only [advance, newTokenizer] at h ⊢
    exact h
  refine ⟨h, by simp [lastError], ?_⟩
  rintro ⟨t, ht, he⟩
  rw [h] at ht
  simp only [Option.some.injEq, Prod.mk.injEq, true_and] at ht
  subst ht
  simp [lastError] at he

/-! ## The whole archive -/

theorem scanAll_token (va vt : List Nat → Bool) (fuel : Nat) (rest next tok : List Nat)
    (adv : Int) (h : ScanMessage va vt rest true = .ok (adv, some tok, none))
    (hn : sliceFrom rest adv = .ok next) :
    scanAll va vt (fuel + 1) rest =
      (scanAll va vt fuel next).map (fun r => (tok :: r.1, r.2)) := by
  rw [scanAll]
  simp only [h, hn, bind, Except.bind, pure, Except.pure]
  cases scanAll va vt fuel next <;> rfl

theorem scanAll_stop (va vt : List Nat → Bool) (fuel : Nat) (rest : List Nat)
    (adv : Int) (err : Option ScanError)
    (h : ScanMessage va vt rest true = .ok (adv, none, err)) :
    scanAll va vt (fuel + 1) rest = .ok ([], rest, (adv, none, err)) := by
  rw [scanAll]
  simp only [h, bind, Except.bind, pure, Except.pure]

/-- From a span in which a separator is found, the loop collects tokens that
add up to the span from that separator on, and ends on the empty remainder. -/
theorem scanAll_found (va vt : List Nat → Bool) :
    ∀ (n : Nat) (rest : List Nat) (p k : Nat), rest.length = n →
      FindSeparator va vt rest = .ok ((p : Int), (k : Int)) →
      ∃ toks : List (List Nat), toks.flatten = rest.drop p ∧ toks.length ≤ rest.length ∧
        ∀ fuel, rest.length + 2 ≤ fuel →
          scanAll va vt fuel rest = .ok (toks, [], (0, none, none)) := by
  intro n
  induction n using Nat.strong_induction_on with
  | _ n ih =>
    intro rest p k hlen hf
    rcases ScanMessage_cases va vt rest true with
      ⟨_, hd, _⟩ | ⟨_, hf0, _⟩ | ⟨p2, k2, hf2, hacc, hc⟩
    · rw [hd, FindSeparator_nil] at hf
      simp only [Except.ok.injEq, Prod.mk.injEq] at hf
      omega
    · rw [hf0] at hf
      simp only [Except.ok.injEq, Prod.mk.injEq] at hf
      omega
    · rw [hf2] at hf
      simp only [Except.ok.injEq, Prod.mk.injEq, Nat.cast_inj] at hf
      obtain ⟨hp, hk⟩ := hf
      subst hp hk
      have hb := hacc.bounds
      rcases hc with ⟨_, hsm⟩ | ⟨q, m, _, hacc2, hsm⟩
      · -- last message: the token runs to the end of the span
        simp only [if_true] at hsm
        refine ⟨[rest.drop p2], by simp, by simp; omega, ?_⟩
        intro fuel hfuel
        obtain ⟨f, rfl⟩ : ∃ f, fuel = f + 2 := ⟨fuel - 2, by omega⟩
        have hnext : sliceFrom rest (rest.length : Int) = .ok [] := by
          rw [sliceFrom_ok rest rest.length (Nat.le_refl _)]
          simp
        rw [scanAll_token va vt (f + 1) rest [] _ _ hsm hnext]
        have hend : ScanMessage va vt [] true = .ok (0, none, none) := by
          rcases ScanMessage_cases va vt [] true with
            ⟨_, _, h⟩ | ⟨hnot, _, _⟩ | ⟨_, _, _, hacc3, _⟩
          · exact h
          · exact absurd ⟨rfl, rfl⟩ hnot
          · have := hacc3.bounds
            simp at this
            omega
        rw [scanAll_stop va vt f [] 0 none hend]
        rfl
      · -- a next separator: the rest of the loop runs on the span that starts with it
        have hb2 := hacc2.bounds
        simp only [List.length_drop] at hb2
        have hfs : FindSeparator va vt (rest.drop (p2 + k2 + q)) = .ok (((0 : Nat) : Int), (m : Int)) := by
          have := hacc2.find_drop
          rw [List.drop_drop] at this
          simpa using this
        have hl : (rest.drop (p2 + k2 + q)).length < n := by
          simp only [List.length_drop]; omega
        obtain ⟨toks, hj, hlt, hrun⟩ := ih _ hl (rest.drop (p2 + k2 + q)) 0 m rfl hfs
        refine ⟨(rest.drop p2).take (k2 + q) :: toks, ?_, ?_, ?_⟩
        · rw [List.flatten_cons, hj, List.drop_zero]
          have e : List.drop (p2 + k2 + q) rest = List.drop (k2 + q) (List.drop p2 rest) := by
            rw [List.drop_drop]; congr 1; omega
          rw [e, List.take_append_drop]
        · simp only [List.length_cons, List.length_drop] at hlt ⊢
          omega
        · intro fuel hfuel
          obtain ⟨f, rfl⟩ : ∃ f, fuel = f + 1 := ⟨fuel - 1, by omega⟩
          have hnext : sliceFrom rest ((p2 + k2 + q : Nat) : Int)
              = .ok (rest.drop (p2 + k2 + q)) :=
            sliceFrom_ok rest _ (by omega)
          rw [scanAll_token va vt f rest _ _ _ hsm hnext,
            hrun f (by simp only [List.length_drop]; omega)]
          rfl

/-- C18: whole-archive partition. For every `data` with
`FindSeparator(data) = (idx, _)` and `idx >= 0`, the loop that calls
`ScanMessage(rest, true)`, starting with `rest = data` and replacing `rest` by
`rest[advance:]` after each returned token, ends after at most
`len(data) + 1` calls with `(0, nil, nil)` on the empty remainder, never meets
an error, and the concatenation of the returned tokens in order equals
`data[idx:]`. -/
theorem C18_whole_archive_partition (va vt : List Nat → Bool) (data : List Nat)
    (idx size : Int)
    (h : FindSeparator va vt data = .ok (idx, size)) (h0 : 0 ≤ idx) :
    ∃ tokens rest0, sliceFrom data idx = .ok rest0 ∧ tokens.flatten = rest0 ∧
      tokens.length + 1 ≤ data.length + 1 ∧
      ∀ fuel, data.length + 2 ≤ fuel →
        scanAll va vt fuel data = .ok (tokens, [], (0, none, none)) := by
  obtain ⟨p, k, hp, hk, hacc⟩ := FindSeparator_found h h0
  subst hp hk
  have hb := hacc.bounds
  obtain ⟨toks, hj, hlt, hrun⟩ := scanAll_found va vt data.length data p k rfl h
  exact ⟨toks, data.drop p, sliceFrom_ok data p (by omega), hj, by omega, hrun⟩

/-- C18, on an archive of three messages behind two bytes of garbage: the loop
returns tokens that add up to the archive from offset 2 on and ends with
`(0, nil, nil)` on the empty remainder. -/
theorem C18_whole_archive_partition_witness :
    ∃ tokens rest0,
      sliceFrom (bytesOf ("xxFrom a@b Mon Apr 20 02:27:10 2015\nfirst\n\n"
        ++ "From c@d Tue Apr 21 16:00:59 2015\nsecond\n\n"
        ++ "From e@f Wed Apr 22 00:00:00 2015\nthird\n")) 2 = .ok rest0 ∧
      tokens.flatten = rest0 ∧
      tokens.length + 1
        ≤ (bytesOf ("xxFrom a@b Mon Apr 20 02:27:10 2015\nfirst\n\n"
          ++ "From c@d Tue Apr 21 16:00:59 2015\nsecond\n\n"
          ++ "From e@f Wed Apr 22 00:00:00 2015\nthird\n")).length + 1 ∧
      ∀ fuel,
        (bytesOf ("xxFrom a@b Mon Apr 20 02:27:10 2015\nfirst\n\n"
          ++ "From c@d Tue Apr 21 16:00:59 2015\nsecond\n\n"
          ++ "From e@f Wed Apr 22 00:00:00 2015\nthird\n")).length + 2 ≤ fuel →
        scanAll addrSpecOk ctimeOk fuel
          (bytesOf ("xxFrom a@b Mon Apr 20 02:27:10 2015\nfirst\n\n"
            ++ "From c@d Tue Apr 21 16:00:59 2015\nsecond\n\n"
            ++ "From e@f Wed Apr 22 00:00:00 2015\nthird\n"))
          = .ok (tokens, [], (0, none, none)) :=
  C18_whole_archive_partition addrSpecOk ctimeOk _ 2 34 (by decide) (by decide)

end Mbox
